import Mathlib

/-!
Verification of the resilient resume-generation pipeline
(`apps/api/app`): text sanitizer, date normalizer, tech-keyword
extractor, payload sanitizer, field normalization engine, schema
validator, retry wrapper and metrics aggregator, embedded from the
Python source into Lean, together with theorems settling the
specification claims.
-/

set_option autoImplicit false
set_option maxRecDepth 8000

/-! ### Character utilities

Python string primitives used by `app/core/normalization.py` are
modelled over `List Char`.  Whitespace and word characters follow the
ASCII subsets of Python's `\s` and `\w`. -/

/-- ASCII whitespace, the ASCII fragment of Python's `\s` and `str.strip`. -/
def isWsC (c : Char) : Bool :=
  c == ' ' || c == '\t' || c == '\n' || c == '\r' ||
    c == Char.ofNat 11 || c == Char.ofNat 12

/-- Word characters, the ASCII fragment of Python's `\w`. -/
def isWordC (c : Char) : Bool :=
  c.isAlphanum || c == '_'

/-- ASCII digits, the fragment of Python regex `\d` exercised here. -/
def isDigitC (c : Char) : Bool :=
  decide (48 ≤ c.toNat) && decide (c.toNat ≤ 57)

/-- Python `str.lower`, restricted to ASCII letters plus the cedilla
used by the Portuguese month names. -/
def toLowerC (c : Char) : Char :=
  if 65 ≤ c.toNat && c.toNat ≤ 90 then Char.ofNat (c.toNat + 32)
  else if c == 'Ç' then 'ç' else c

def lowerChars (l : List Char) : List Char := l.map toLowerC

def lowerStr (s : String) : String := ⟨lowerChars s.data⟩

/-- Membership in the code-point ranges of `EMOJI_PATTERN` in
`normalization.py`. -/
def isEmojiC (c : Char) : Bool :=
  let n := c.toNat
  (0x1F600 ≤ n && n ≤ 0x1F64F) ||
  (0x1F300 ≤ n && n ≤ 0x1F5FF) ||
  (0x1F680 ≤ n && n ≤ 0x1F6FF) ||
  (0x1F1E0 ≤ n && n ≤ 0x1F1FF) ||
  (0x2700 ≤ n && n ≤ 0x27BF) ||
  (0x1F900 ≤ n && n ≤ 0x1F9FF) ||
  (0x1FA70 ≤ n && n ≤ 0x1FAFF) ||
  (0x2600 ≤ n && n ≤ 0x26FF) ||
  (0x24C2 ≤ n && n ≤ 0x1F251)

/-! ### HTML entity decoding

Models CPython `html.unescape` restricted to the semicolon-terminated
core named references `&amp;` `&lt;` `&gt;` `&quot;` `&#39;`-style
apostrophe; the scan is left-to-right and non-overlapping, and an
ampersand that starts no known reference is kept verbatim, exactly as
in CPython.  (`html.unescape` is standard-library code, not part of
this repository; only its behaviour on these references is relied on
by any theorem below.) -/

def matchEntity (l : List Char) : Option (Char × List Char) :=
  match l with
  | 'a' :: 'm' :: 'p' :: ';' :: rest => some ('&', rest)
  | 'a' :: 'p' :: 'o' :: 's' :: ';' :: rest => some (Char.ofNat 39, rest)
  | 'l' :: 't' :: ';' :: rest => some ('<', rest)
  | 'g' :: 't' :: ';' :: rest => some ('>', rest)
  | 'q' :: 'u' :: 'o' :: 't' :: ';' :: rest => some ('"', rest)
  | _ => none

def unescapeFuel : Nat → List Char → List Char
  | 0, l => l
  | _ + 1, [] => []
  | n + 1, c :: rest =>
    if c == '&' then
      match matchEntity rest with
      | some p => p.1 :: unescapeFuel n p.2
      | none => '&' :: unescapeFuel n rest
    else c :: unescapeFuel n rest

def pyUnescape (l : List Char) : List Char := unescapeFuel l.length l

/-! ### `strip_html`: `HTML_TAG_PATTERN = re.compile(r"<[^>]+>")`,
replaced by a single space, leftmost non-overlapping matches. -/

/-- Drop characters up to and including the first `'>'`. -/
def findGt : List Char → Option (List Char)
  | [] => none
  | c :: rest => if c == '>' then some rest else findGt rest

def stripHtmlFuel : Nat → List Char → List Char
  | 0, l => l
  | _ + 1, [] => []
  | n + 1, c :: rest =>
    if c == '<' then
      match rest with
      | [] => ['<']
      | d :: rest2 =>
        if d == '>' then '<' :: stripHtmlFuel n rest
        else
          match findGt rest2 with
          | some rest3 => ' ' :: stripHtmlFuel n rest3
          | none => '<' :: stripHtmlFuel n rest
    else c :: stripHtmlFuel n rest

def pyStripHtml (l : List Char) : List Char := stripHtmlFuel l.length l

/-- `remove_emoji`: delete every character inside the emoji ranges. -/
def removeEmoji (l : List Char) : List Char := l.filter (fun c => !isEmojiC c)

/-- `WHITESPACE_PATTERN.sub(" ", text)`: collapse every maximal
whitespace run to one space. -/
def collapseWs : List Char → List Char
  | [] => []
  | [c] => [if isWsC c then ' ' else c]
  | c :: d :: rest =>
    if isWsC c && isWsC d then collapseWs (d :: rest)
    else (if isWsC c then ' ' else c) :: collapseWs (d :: rest)

/-- Remove trailing whitespace, Python `str.rstrip`. -/
def trimRight : List Char → List Char
  | [] => []
  | c :: rest =>
    match trimRight rest with
    | [] => if isWsC c then [] else [c]
    | r => c :: r

/-- `normalize_whitespace`: collapse runs, then `str.strip`. -/
def normWsChars (l : List Char) : List Char :=
  trimRight ((collapseWs l).dropWhile isWsC)

/-- The sanitation pipeline of `clean_text` before the emptiness check:
unescape entities, strip tags, strip emoji, normalize whitespace. -/
def cleanChars (l : List Char) : List Char :=
  normWsChars (removeEmoji (pyStripHtml (pyUnescape l)))

/-- `clean_text(value, max_length)` from `normalization.py`. -/
def cleanText (value : Option String) (maxLength : Nat) : Option String :=
  match value with
  | none => none
  | some s =>
    let t := cleanChars s.data
    if t.isEmpty then none
    else if maxLength < t.length then some ⟨trimRight (t.take maxLength)⟩
    else some ⟨t⟩

/-! ### Field length constants from `normalization.py`. -/

def MAX_NAME_LENGTH : Nat := 120
def MAX_JOB_TITLE_LENGTH : Nat := 120
def MAX_INTRO_LENGTH : Nat := 1200
def MAX_BULLET_LENGTH : Nat := 320
def MAX_TECH_ITEM_LENGTH : Nat := 60
def MAX_LOCATION_LENGTH : Nat := 120
def MAX_EDU_FIELD_LENGTH : Nat := 160
def MAX_LANGUAGE_NAME_LENGTH : Nat := 60
def MAX_EXTERNAL_LABEL_LENGTH : Nat := 80
def MAX_EXTERNAL_URL_LENGTH : Nat := 220
def MAX_CONTACT_FIELD_LENGTH : Nat := 120

/-! ### Date normalization: `normalize_date` in `normalization.py`. -/

/-- The separator class (dash, slash or dot) of the numeric date patterns. -/
def isDateSepC (c : Char) : Bool := c == '-' || c == '/' || c == '.'

/-- The class `[A-Za-zçÇ\.]` of the month-name group. -/
def isAlphaDotC (c : Char) : Bool :=
  (65 ≤ c.toNat && c.toNat ≤ 90) || (97 ≤ c.toNat && c.toNat ≤ 122) ||
    c == 'ç' || c == 'Ç' || c == '.'

/-- The separator class (whitespace, dash, slash, comma or dot) between
month name and year. -/
def isNameSepC (c : Char) : Bool :=
  isWsC c || c == '-' || c == '/' || c == ',' || c == '.'

def digitVal (c : Char) : Nat := c.toNat - 48

def twoDigitVal : List Char → Nat
  | [c] => digitVal c
  | [c, d] => 10 * digitVal c + digitVal d
  | _ => 0

/-- `MONTH_ALIASES` from `normalization.py` (lowercase month names,
English and Portuguese). -/
def MONTH_ALIASES : List (String × Nat) :=
  [("january", 1), ("jan", 1), ("janeiro", 1), ("jan.", 1),
   ("february", 2), ("feb", 2), ("fev", 2), ("fevereiro", 2),
   ("mar", 3), ("march", 3), ("março", 3), ("marco", 3),
   ("apr", 4), ("apr.", 4), ("april", 4), ("abril", 4),
   ("may", 5), ("maio", 5),
   ("jun", 6), ("june", 6), ("junho", 6),
   ("jul", 7), ("july", 7), ("julho", 7),
   ("aug", 8), ("august", 8), ("agosto", 8),
   ("sep", 9), ("sept", 9), ("september", 9), ("set", 9), ("setembro", 9),
   ("oct", 10), ("october", 10), ("out", 10), ("outubro", 10),
   ("nov", 11), ("november", 11), ("novembro", 11),
   ("dec", 12), ("december", 12), ("dez", 12), ("dezembro", 12)]

def monthLookup (key : String) : Option Nat :=
  (MONTH_ALIASES.find? (fun p => p.1 == key)).map (·.2)

/-- `f"{year}-{month_num:02d}"` for a four-digit year and `month ≤ 99`. -/
def ymString (ys : List Char) (m : Nat) : String :=
  ⟨ys ++ '-' :: [Char.ofNat (48 + m / 10), Char.ofNat (48 + m % 10)]⟩

/-- The pattern `four digits, separator, one or two digits, end` (the
first numeric pattern of `normalize_date`).  Returns the year digits
and the month value. -/
def parseYmd (l : List Char) : Option (List Char × Nat) :=
  let ys := l.takeWhile isDigitC
  if ys.length == 4 then
    match l.dropWhile isDigitC with
    | sep :: ms =>
      if isDateSepC sep && ms.all isDigitC &&
          decide (1 ≤ ms.length) && decide (ms.length ≤ 2) then
        some (ys, twoDigitVal ms)
      else none
    | [] => none
  else none

/-- The pattern `one or two digits, separator, four digits, end` (the
second numeric pattern of `normalize_date`). -/
def parseMdy (l : List Char) : Option (List Char × Nat) :=
  let ms := l.takeWhile isDigitC
  if decide (1 ≤ ms.length) && decide (ms.length ≤ 2) then
    match l.dropWhile isDigitC with
    | sep :: ys =>
      if isDateSepC sep && ys.all isDigitC && ys.length == 4 then
        some (ys, twoDigitVal ms)
      else none
    | [] => none
  else none

/-- Python `month_name.strip(". ")`. -/
def stripDotSpace (l : List Char) : List Char :=
  ((((l.dropWhile fun c => c == '.' || c == ' ').reverse).dropWhile
      fun c => c == '.' || c == ' ')).reverse

/-- The month-name pattern of `normalize_date` on the lowercased
string: a nonempty run of letters and dots, a possibly empty run of
name separators, then exactly four digits to the end, followed by the
`MONTH_ALIASES` lookup of the stripped name. -/
def parseNameYear (l : List Char) : Option (List Char × Nat) :=
  if decide (5 ≤ l.length) then
    let pre := l.take (l.length - 4)
    let ys := l.drop (l.length - 4)
    if ys.all isDigitC then
      let g1 := pre.takeWhile isAlphaDotC
      let sepPart := pre.drop g1.length
      if decide (1 ≤ g1.length) && sepPart.all isNameSepC then
        match monthLookup ⟨stripDotSpace g1⟩ with
        | some m => some (ys, m)
        | none => none
      else none
    else none
  else none

/-- `^(\d{4})$`. -/
def parseYearOnly (l : List Char) : Option (List Char) :=
  if l.all isDigitC && l.length == 4 then some l else none

/-- The sentinel test `lowered in {"atual", "current", "present",
"ongoing", "now"}`. -/
def isSentinelWord (lowered : String) : Bool :=
  lowered == "atual" || lowered == "current" || lowered == "present" ||
    lowered == "ongoing" || lowered == "now"

/-- Month-validity guard `1 <= month_num <= 12`; an out-of-range month
falls through to the next pattern, as in the source. -/
def tryNumeric (p : Option (List Char × Nat)) : Option String :=
  match p with
  | some (ys, m) => if 1 ≤ m && m ≤ 12 then some (ymString ys m) else none
  | none => none

/-- `normalize_date(value, allow_atual)` from `normalization.py`.
Failure carries the Python `ValueError` message. -/
def normalizeDate (value : String) (allowAtual : Bool) : Except String String :=
  match cleanText (some value) 40 with
  | none => .error "Date value is empty after normalization"
  | some raw =>
    if allowAtual && isSentinelWord (lowerStr raw) then .ok "Atual"
    else
      match tryNumeric (parseYmd raw.data) with
      | some d => .ok d
      | none =>
        match tryNumeric (parseMdy raw.data) with
        | some d => .ok d
        | none =>
          match parseNameYear (lowerStr raw).data with
          | some (ys, m) => .ok (ymString ys m)
          | none =>
            match parseYearOnly raw.data with
            | some ys => .ok (ymString ys 1)
            | none => .error ("Invalid date format: " ++ value)

/-! ### Tech keyword extraction: `RAW_TECH_KEYWORDS`,
`_compile_keyword_patterns` and `extract_tech_keywords`. -/

def RAW_TECH_KEYWORDS : List String :=
  ["Python", "FastAPI", "Flask", "Django", "Java", "Spring", "JavaScript",
   "TypeScript", "React", "Next.js", "Vue", "Angular", "Node.js", "Express",
   "NestJS", "PHP", "Laravel", "Ruby", "Ruby on Rails", "Go", "Golang",
   "Rust", "C", "C++", "C#", ".NET", "ASP.NET", "Kotlin", "Swift",
   "Objective-C", "SQL", "MySQL", "PostgreSQL", "SQLite", "MongoDB",
   "Redis", "Elasticsearch", "GraphQL", "REST", "gRPC", "Docker",
   "Kubernetes", "AWS", "Azure", "GCP", "Terraform", "Ansible", "CI/CD",
   "Git", "GitHub Actions", "Bitbucket", "Jenkins", "Linux", "Bash",
   "PowerShell", "HTML", "CSS", "SASS", "Tailwind", "Bootstrap", "Figma",
   "Photoshop", "Illustrator", "Tableau", "Power BI", "Airflow", "Spark",
   "Hadoop", "Pandas", "NumPy", "TensorFlow", "PyTorch", "Scikit-Learn",
   "Machine Learning", "Data Science", "ETL", "NoSQL", "Microservices",
   "Event-Driven"]

/-- Whether the keyword occurs at the head of `t`, with the trailing
`(?!\w)` boundary; `pre` is the character just before the occurrence,
for the leading `(?<!\w)` boundary.  Both sides are lowercased, which
models the `re.IGNORECASE` search of the lowercase-escaped keyword. -/
def matchHereBd : List Char → List Char → Bool
  | [], [] => true
  | [], c :: _ => !isWordC c
  | _ :: _, [] => false
  | a :: k, c :: t => a == c && matchHereBd k t

def searchFromBd (k : List Char) : Option Char → List Char → Bool
  | pre, t =>
    ((match pre with | none => true | some p => !isWordC p) && matchHereBd k t) ||
      match t with
      | [] => false
      | c :: rest => searchFromBd k (some c) rest

/-- `pattern.search(text)` for the compiled pattern
`(?<!\w)escape(keyword.lower())(?!\w)` with `re.IGNORECASE`. -/
def kwMatch (kw text : String) : Bool :=
  searchFromBd (lowerChars kw.data) none (lowerChars text.data)

/-- The inner body of the `extract_tech_keywords` loop: skip a label
already collected, append it when its pattern matches the text. -/
def kwStep (s : String) (acc : List String) (kw : String) : List String :=
  if acc.contains kw then acc
  else if kwMatch kw s then acc ++ [kw] else acc

/-- Scanning one (possibly absent, possibly falsy) input text. -/
def kwScanText (acc : List String) (t : Option String) : List String :=
  match t with
  | none => acc
  | some s => if s == "" then acc else RAW_TECH_KEYWORDS.foldl (kwStep s) acc

/-- `extract_tech_keywords(*texts)`: per input text, scan the compiled
vocabulary in order, skipping labels already collected, then keep the
first ten. -/
def extractTechKeywords (texts : List (Option String)) : List String :=
  (texts.foldl kwScanText []).take 10

/-! ### Resume payload model

`normalize_resume_payload` consumes a loosely typed JSON object; the
keys it reads are fixed, so the raw payload is modelled as a record of
optional fields (an absent key and an explicit `None` behave alike in
the source, both via `dict.get`).  Values are assumed well-typed
(strings and lists of strings), as produced by `json.loads` plus
`_validate_and_clean_json` on schema-conforming provider output. -/

structure RawContact where
  email : Option String
  phone : Option String
  location : Option String
deriving DecidableEq, Repr

structure RawExperience where
  company : Option String
  role : Option String
  location : Option String
  start_date : Option String
  end_date : Option String
  bullets : List String
  tech_stack : List String
deriving DecidableEq, Repr

structure RawEducation where
  institution : Option String
  degree : Option String
  start_date : Option String
  end_date : Option String
deriving DecidableEq, Repr

structure RawLanguage where
  name : Option String
  level : Option String
deriving DecidableEq, Repr

structure RawLink where
  label : Option String
  url : Option String
deriving DecidableEq, Repr

structure RawResume where
  name : Option String
  job_title : Option String
  candidate_introduction : Option String
  contact_information : Option RawContact
  experiences : List RawExperience
  education : List RawEducation
  languages : List RawLanguage
  external_links : List RawLink
deriving DecidableEq, Repr

structure NormContact where
  email : Option String
  phone : Option String
  location : Option String
deriving DecidableEq, Repr

structure NormExperience where
  company : String
  role : String
  location : Option String
  start_date : String
  end_date : String
  bullets : List String
  tech_stack : List String
deriving DecidableEq, Repr

structure NormEducation where
  institution : String
  degree : String
  start_date : String
  end_date : String
deriving DecidableEq, Repr

structure NormLanguage where
  name : String
  level : String
deriving DecidableEq, Repr

structure NormLink where
  label : String
  url : String
deriving DecidableEq, Repr

structure NormResume where
  name : String
  job_title : String
  candidate_introduction : String
  contact_information : Option NormContact
  experiences : List NormExperience
  education : List NormEducation
  languages : List NormLanguage
  external_links : List NormLink
deriving DecidableEq, Repr

/-- Case-insensitive first-seen deduplication of the cleaned tech
stack (the `seen_items` loop of `normalize_resume_payload`). -/
def dedupCaseIns (items : List String) : List String :=
  (items.foldl
    (fun acc skill =>
      if acc.2.contains (lowerStr skill) then acc
      else (acc.1 ++ [skill], acc.2 ++ [lowerStr skill]))
    ([], [])).1

/-- Normalization of one experience entry, including the tech-stack
fallback over role, company, bullets and the job text.  The experience
`start_date` is normalized with the *default* `allow_atual=True` of
`normalize_date`, exactly as at line 300 of `normalization.py`. -/
def normalizeExperience (jobText : Option String) (exp : RawExperience) :
    Except String NormExperience := do
  let company := (cleanText exp.company MAX_NAME_LENGTH).getD ""
  let role := (cleanText exp.role MAX_JOB_TITLE_LENGTH).getD ""
  let location := cleanText exp.location MAX_LOCATION_LENGTH
  let startDate ← normalizeDate (exp.start_date.getD "") true
  let endDate ← normalizeDate (exp.end_date.getD "") true
  let bullets := exp.bullets.filterMap
    (fun b => cleanText (some b) MAX_BULLET_LENGTH)
  let ts0 := exp.tech_stack.filterMap
    (fun i => cleanText (some i) MAX_TECH_ITEM_LENGTH)
  let ts1 := if ts0.isEmpty then ts0 else dedupCaseIns ts0
  let techStack :=
    if ts1.isEmpty then
      extractTechKeywords
        ([some role, some company] ++ bullets.map some ++ [jobText])
    else ts1
  pure { company := company, role := role, location := location,
         start_date := startDate, end_date := endDate,
         bullets := bullets, tech_stack := techStack }

def normalizeEducation (edu : RawEducation) : Except String NormEducation := do
  let institution := (cleanText edu.institution MAX_EDU_FIELD_LENGTH).getD ""
  let degree := (cleanText edu.degree MAX_EDU_FIELD_LENGTH).getD ""
  let startDate ← normalizeDate (edu.start_date.getD "") false
  let endDate ← normalizeDate (edu.end_date.getD "") false
  pure { institution := institution, degree := degree,
         start_date := startDate, end_date := endDate }

def normalizeContact (contact : Option RawContact) : Option NormContact :=
  match contact with
  | none => none
  | some c =>
    let email := cleanText c.email MAX_CONTACT_FIELD_LENGTH
    let phone := cleanText c.phone MAX_CONTACT_FIELD_LENGTH
    let location := cleanText c.location MAX_CONTACT_FIELD_LENGTH
    if email.isSome || phone.isSome || location.isSome then
      some { email := email, phone := phone, location := location }
    else none

def normalizeLanguage (lang : RawLanguage) : NormLanguage :=
  { name := (cleanText lang.name MAX_LANGUAGE_NAME_LENGTH).getD "",
    level := (cleanText lang.level 10).getD "" }

def normalizeLinks (links : List RawLink) : List NormLink :=
  links.filterMap fun link =>
    let label := (cleanText link.label MAX_EXTERNAL_LABEL_LENGTH).getD ""
    let url := (cleanText link.url MAX_EXTERNAL_URL_LENGTH).getD ""
    if label != "" && url != "" then some { label := label, url := url }
    else none

/-- Effectful traversal of a list, stopping at the first error, as the
Python for-loops over experiences and education propagate the first
`ValueError`. -/
def exceptMapM {α β : Type} (f : α → Except String β) :
    List α → Except String (List β)
  | [] => .ok []
  | x :: xs => do
    let y ← f x
    let ys ← exceptMapM f xs
    pure (y :: ys)

/-- `normalize_resume_payload(data, job_text)` from `normalization.py`. -/
def normalizeResumePayload (data : RawResume) (jobText : Option String) :
    Except String NormResume := do
  let name := (cleanText data.name MAX_NAME_LENGTH).getD ""
  let jobTitle := (cleanText data.job_title MAX_JOB_TITLE_LENGTH).getD ""
  let intro := (cleanText data.candidate_introduction MAX_INTRO_LENGTH).getD ""
  let contact := normalizeContact data.contact_information
  let experiences ← exceptMapM (normalizeExperience jobText) data.experiences
  let education ← exceptMapM normalizeEducation data.education
  let languages := data.languages.map normalizeLanguage
  let links := normalizeLinks data.external_links
  pure { name := name, job_title := jobTitle,
         candidate_introduction := intro, contact_information := contact,
         experiences := experiences, education := education,
         languages := languages, external_links := links }

/-- Reading a normalized record back as a raw payload: the output dict
of `normalize_resume_payload` fed again to `normalize_resume_payload`.
Every key is present in the output dict, so each scalar becomes `some`;
the normalized contact object is a non-empty (hence truthy) dict. -/
def expToRaw (e : NormExperience) : RawExperience :=
  { company := some e.company, role := some e.role, location := e.location,
    start_date := some e.start_date, end_date := some e.end_date,
    bullets := e.bullets, tech_stack := e.tech_stack }

def eduToRaw (e : NormEducation) : RawEducation :=
  { institution := some e.institution, degree := some e.degree,
    start_date := some e.start_date, end_date := some e.end_date }

def normToRaw (y : NormResume) : RawResume :=
  { name := some y.name, job_title := some y.job_title,
    candidate_introduction := some y.candidate_introduction,
    contact_information := y.contact_information.map
      (fun c => { email := c.email, phone := c.phone, location := c.location }),
    experiences := y.experiences.map expToRaw,
    education := y.education.map eduToRaw,
    languages := y.languages.map
      (fun l => { name := some l.name, level := some l.level }),
    external_links := y.external_links.map
      (fun l => { label := some l.label, url := some l.url }) }

/-! ### Schema validator: `app/core/schemas.py`

Pydantic models are embedded as predicates over the normalized record
plus the construction `ResumeResponse(**normalized_data)`, which (with
pydantic's default `extra='ignore'`) keeps exactly the six declared
fields and silently drops any others. -/

/-- The date pattern of the start-date and education validators:
exactly four digits, a dash, exactly two digits. -/
def isYmToken (s : String) : Bool :=
  match s.data with
  | [a, b, c, d, e, f, g] =>
    isDigitC a && isDigitC b && isDigitC c && isDigitC d &&
      e == '-' && isDigitC f && isDigitC g
  | _ => false

/-- `Experience` model validation: non-empty company/role/location,
`start_date` in `YYYY-MM`, `end_date` in `YYYY-MM` or `"Atual"`,
at least one bullet, all bullets non-empty. -/
def validExperience (e : NormExperience) : Bool :=
  decide (1 ≤ e.company.length) && decide (1 ≤ e.role.length) &&
    (match e.location with
     | some l => decide (1 ≤ l.length)
     | none => false) &&
    isYmToken e.start_date &&
    (isYmToken e.end_date || e.end_date == "Atual") &&
    !e.bullets.isEmpty && e.bullets.all (fun b => b != "")

/-- `Education` model validation: both dates in `YYYY-MM`, no sentinel. -/
def validEducation (e : NormEducation) : Bool :=
  decide (1 ≤ e.institution.length) && decide (1 ≤ e.degree.length) &&
    isYmToken e.start_date && isYmToken e.end_date

/-- The `Literal` enumeration of `Language.level` in `schemas.py`. -/
def LANGUAGE_LEVELS : List String := ["A2", "B1", "B2", "C1", "C2", "Nativo"]

/-- `Language` model validation. -/
def validLanguage (l : NormLanguage) : Bool :=
  decide (1 ≤ l.name.length) && LANGUAGE_LEVELS.contains l.level

/-- The fields pydantic's `ResumeResponse` declares — and the only data
the validated object carries. -/
structure ResumeResponseModel where
  name : String
  job_title : String
  candidate_introduction : String
  experiences : List NormExperience
  education : List NormEducation
  languages : List NormLanguage
deriving DecidableEq, Repr

/-- `ResumeResponse(**normalized_data)`: validate the declared fields
and ignore the rest (`contact_information`, `external_links`). -/
def buildResumeResponse (r : NormResume) : Except String ResumeResponseModel :=
  if decide (1 ≤ r.name.length) && decide (1 ≤ r.job_title.length) &&
      decide (1 ≤ r.candidate_introduction.length) &&
      !r.experiences.isEmpty && r.experiences.all validExperience &&
      r.education.all validEducation && r.languages.all validLanguage then
    .ok { name := r.name, job_title := r.job_title,
          candidate_introduction := r.candidate_introduction,
          experiences := r.experiences, education := r.education,
          languages := r.languages }
  else .error "Invalid resume structure"

/-! ### Payload sanitizer: `_validate_and_clean_json` in
`services/llm_client.py`.

JSON values are modelled by a mutually inductive tree so that all
recursions stay structural (and hence kernel-computable). -/

mutual
inductive JVal where
  | null : JVal
  | str : String → JVal
  | num : Int → JVal
  | bool : Bool → JVal
  | arr : JList → JVal
  | obj : JObj → JVal
deriving DecidableEq, Repr

inductive JList where
  | nil : JList
  | cons : JVal → JList → JList
deriving DecidableEq, Repr

inductive JObj where
  | nil : JObj
  | cons : String → JVal → JObj → JObj
deriving DecidableEq, Repr
end

/-- The filter `v not in [None, "", []]` applied to raw dictionary
values before recursion. -/
def jIsEmptyRaw : JVal → Bool
  | .null => true
  | .str s => s == ""
  | .arr .nil => true
  | _ => false

/-- The filter `item not in [None, ""]` applied to raw sequence
elements before recursion. -/
def jIsDroppedElem : JVal → Bool
  | .null => true
  | .str s => s == ""
  | _ => false

mutual
/-- `clean_dict` from `_validate_and_clean_json`: keys are filtered on
their raw value and the kept values cleaned recursively; sequences drop
raw null and empty-string elements, clean the rest, and collapse an
empty result to null. -/
def cleanJVal : JVal → JVal
  | .arr xs =>
    match cleanJList xs with
    | .nil => .null
    | ys => .arr ys
  | .obj fs => .obj (cleanJObj fs)
  | v => v

def cleanJList : JList → JList
  | .nil => .nil
  | .cons v rest =>
    if jIsDroppedElem v then cleanJList rest
    else .cons (cleanJVal v) (cleanJList rest)

def cleanJObj : JObj → JObj
  | .nil => .nil
  | .cons k v rest =>
    if jIsEmptyRaw v then cleanJObj rest
    else .cons k (cleanJVal v) (cleanJObj rest)
end

/-- `_validate_and_clean_json(data)`: reject a non-dict or empty
(falsy) top level, clean, and reject an empty cleaned result. -/
def validateAndCleanJson (data : JVal) : Except String JVal :=
  match data with
  | .obj .nil => .error "Invalid JSON structure received from LLM"
  | .obj fs =>
    match cleanJObj fs with
    | .nil => .error "All fields are empty after cleaning"
    | cleaned => .ok (.obj cleaned)
  | _ => .error "Invalid JSON structure received from LLM"

/-- Every raw value of the object is null, an empty string or an
empty sequence — precisely the objects `clean_dict` prunes to nothing. -/
def jobjAllEmptyRaw : JObj → Bool
  | .nil => true
  | .cons _ v rest => jIsEmptyRaw v && jobjAllEmptyRaw rest

/-! ### Resilient call wrapper

The three LLM entry points in `services/llm_client.py` are each
decorated with the same `tenacity` policy:
`stop_after_attempt(3)`, `wait_exponential(multiplier=1, min=2, max=10)`,
`retry_if_exception_type((APIError, APITimeoutError, RateLimitError))`,
`reraise=True`.  `tenacity` is an external library; its documented
semantics are embedded here with exactly those parameters: attempts are
numbered from 1, a failed attempt `n` is followed (while attempts
remain and the failure kind is retryable) by a sleep of
`max(min, min(multiplier * 2 ** n, max))` time units, and on
exhaustion the last error is re-raised unchanged. -/

inductive LLMFailure where
  | apiError : LLMFailure
  | apiTimeout : LLMFailure
  | rateLimit : LLMFailure
  | invalidJson : String → LLMFailure
  | schemaViolation : String → LLMFailure
  | localError : String → LLMFailure
deriving DecidableEq, Repr

/-- `retry_if_exception_type((APIError, APITimeoutError, RateLimitError))`. -/
def isRetryable : LLMFailure → Bool
  | .apiError => true
  | .apiTimeout => true
  | .rateLimit => true
  | _ => false

/-- `wait_exponential(multiplier=1, min=2, max=10)` after attempt `n`. -/
def backoffWait (n : Nat) : Nat := max 2 (min (2 ^ n) 10)

structure RetryOutcome (α : Type) where
  result : Except LLMFailure α
  attempts : Nat
  waits : List Nat
deriving Repr

/-- One retry loop: `attempt` is the 1-based number of the attempt
about to run, `remaining` the number of further attempts the stop
policy still allows. -/
def retryGo {α : Type} (outcomes : Nat → Except LLMFailure α) :
    Nat → Nat → RetryOutcome α
  | attempt, remaining =>
    match outcomes attempt with
    | .ok a => ⟨.ok a, 1, []⟩
    | .error e =>
      match remaining with
      | 0 => ⟨.error e, 1, []⟩
      | r + 1 =>
        if isRetryable e then
          let rec' := retryGo outcomes (attempt + 1) r
          ⟨rec'.result, rec'.attempts + 1, backoffWait attempt :: rec'.waits⟩
        else ⟨.error e, 1, []⟩

/-- A decorated LLM call: `stop_after_attempt(3)` allows attempts
1, 2 and 3. -/
def llmCall {α : Type} (outcomes : Nat → Except LLMFailure α) :
    RetryOutcome α :=
  retryGo outcomes 1 2

/-! ### Metrics aggregator: `app/core/metrics.py`

`MetricsRecorder.record_request` runs entirely under one lock, so each
call is an atomic state transition; an arbitrary interleaving of
concurrent callers is an arbitrary ordering of these transitions.
Durations (Python floats holding rounded elapsed milliseconds) are
modelled as rationals. -/

structure MetricsState where
  success : Nat
  error : Nat
  stepCount : String → Nat
  stepTotal : String → ℚ

def initialMetrics : MetricsState :=
  { success := 0, error := 0, stepCount := fun _ => 0, stepTotal := fun _ => 0 }

def recordStep (s : MetricsState) (p : String × ℚ) : MetricsState :=
  { s with
    stepCount := fun k => if k = p.1 then s.stepCount k + 1 else s.stepCount k,
    stepTotal := fun k => if k = p.1 then s.stepTotal k + p.2 else s.stepTotal k }

/-- `MetricsRecorder.record_request(status, step_durations)`: normalize
the status, bump exactly one request counter, and fold the per-step
durations into the running totals. -/
def recordRequest (status : String) (stepDurations : List (String × ℚ))
    (s : MetricsState) : MetricsState :=
  let s1 :=
    if status = "success" then { s with success := s.success + 1 }
    else { s with error := s.error + 1 }
  stepDurations.foldl recordStep s1

/-- Folding a whole run of requests (in the order the lock serialized
them) into the aggregator. -/
def runRequests (calls : List (String × List (String × ℚ)))
    (s : MetricsState) : MetricsState :=
  calls.foldl (fun st c => recordRequest c.1 c.2 st) s

/-! ### Character-level predicates used by the fixed-point analysis of
`clean_text`. -/

/-- No ampersand: HTML-entity decoding is the identity on such text. -/
def noAmp (l : List Char) : Bool := decide ('&' ∉ l)

def noEmojiAll (l : List Char) : Bool := l.all (fun c => !isEmojiC c)

/-- Every `'<'` is final, immediately followed by `'>'`, or has no
`'>'` anywhere after it — exactly the strings on which tag stripping is
the identity, and an invariant of its output. -/
def tagFree : List Char → Bool
  | [] => true
  | c :: rest =>
    (if c == '<' then
       match rest with
       | [] => true
       | d :: _ => d == '>' || !rest.contains '>'
     else true) && tagFree rest

def allWsSpace (l : List Char) : Bool := l.all (fun c => !isWsC c || c == ' ')

def noTwoWs : List Char → Bool
  | [] => true
  | [_] => true
  | c :: d :: rest => !(isWsC c && isWsC d) && noTwoWs (d :: rest)

def headNotWs (l : List Char) : Bool :=
  match l with
  | [] => true
  | c :: _ => !isWsC c

def lastNotWs : List Char → Bool
  | [] => true
  | [c] => !isWsC c
  | _ :: rest => lastNotWs rest

/-- Whitespace-normalized: all whitespace is a single interior space. -/
def wsNormOk (l : List Char) : Bool :=
  allWsSpace l && noTwoWs l && headNotWs l && lastNotWs l

/-- Characters untouched by the whole sanitation pipeline. -/
def plainAscii (c : Char) : Bool :=
  !isWsC c && !isEmojiC c && c != '&' && c != '<'

/-! ### Ampersand-freedom of a normalized resume (every text field). -/

def strNoAmp (s : String) : Bool := noAmp s.data

def optNoAmp (s : Option String) : Bool :=
  match s with
  | none => true
  | some t => strNoAmp t

def ampFreeExperience (e : NormExperience) : Bool :=
  strNoAmp e.company && strNoAmp e.role && optNoAmp e.location &&
    strNoAmp e.start_date && strNoAmp e.end_date &&
    e.bullets.all strNoAmp && e.tech_stack.all strNoAmp

def ampFreeEducation (e : NormEducation) : Bool :=
  strNoAmp e.institution && strNoAmp e.degree &&
    strNoAmp e.start_date && strNoAmp e.end_date

def ampFreeResume (y : NormResume) : Bool :=
  strNoAmp y.name && strNoAmp y.job_title &&
    strNoAmp y.candidate_introduction &&
    (match y.contact_information with
     | none => true
     | some c => optNoAmp c.email && optNoAmp c.phone && optNoAmp c.location) &&
    y.experiences.all ampFreeExperience &&
    y.education.all ampFreeEducation &&
    y.languages.all (fun l => strNoAmp l.name && strNoAmp l.level) &&
    y.external_links.all (fun l => strNoAmp l.label && strNoAmp l.url)

/-! ### Concrete payloads used by individual claims. -/

/-- A pruned payload whose only experience has the ongoing sentinel as
its raw `start_date`. -/
def c1Raw : RawResume :=
  { name := some "Ana", job_title := some "Eng",
    candidate_introduction := some "Builds services.",
    contact_information := none,
    experiences := [{ company := some "Acme", role := some "Eng",
                      location := some "Remote", start_date := some "Atual",
                      end_date := some "2020-01", bullets := ["Shipped X"],
                      tech_stack := ["Python"] }],
    education := [], languages := [], external_links := [] }

/-- The canonical record `normalize_resume_payload` produces for
`c1Raw`: the sentinel survives as `start_date`. -/
def c1Norm : NormResume :=
  { name := "Ana", job_title := "Eng",
    candidate_introduction := "Builds services.",
    contact_information := none,
    experiences := [{ company := "Acme", role := "Eng",
                      location := some "Remote", start_date := "Atual",
                      end_date := "2020-01", bullets := ["Shipped X"],
                      tech_stack := ["Python"] }],
    education := [], languages := [], external_links := [] }

/-- `{"a": null, "b": "", "c": [], "d": "x"}`. -/
def c3Example1 : JVal :=
  .obj (.cons "a" .null (.cons "b" (.str "")
    (.cons "c" (.arr .nil) (.cons "d" (.str "x") .nil))))

/-- `{"a": [""], "d": "x"}`: the key `"a"` survives the raw-value
filter and its value then prunes to null. -/
def c3Example2 : JVal :=
  .obj (.cons "a" (.arr (.cons (.str "") .nil)) (.cons "d" (.str "x") .nil))

/-- A normalized record carrying contact information and an external
link, as handed to `ResumeResponse(**normalized_data)`. -/
def c7Norm : NormResume :=
  { name := "Alice Smith", job_title := "Senior Engineer",
    candidate_introduction := "Experienced engineer.",
    contact_information := some { email := some "alice@example.com",
                                  phone := none, location := some "Remote" },
    experiences := [{ company := "Acme", role := "Engineer",
                      location := some "Remote", start_date := "2020-01",
                      end_date := "Atual", bullets := ["Built APIs."],
                      tech_stack := ["Python", "FastAPI"] }],
    education := [{ institution := "MIT", degree := "BS Computer Science",
                    start_date := "2015-01", end_date := "2019-12" }],
    languages := [{ name := "English", level := "C2" }],
    external_links := [{ label := "LinkedIn",
                         url := "https://example.com" }] }

/-- A raw payload whose name field is a doubly escaped ampersand. -/
def c8Raw : RawResume :=
  { name := some "&amp;amp;", job_title := none,
    candidate_introduction := none, contact_information := none,
    experiences := [], education := [], languages := [],
    external_links := [] }

/-- First-pass output of `normalize_resume_payload` on `c8Raw`: one
level of entity escaping has been decoded. -/
def c8FirstPass : NormResume :=
  { name := "&amp;", job_title := "", candidate_introduction := "",
    contact_information := none, experiences := [], education := [],
    languages := [], external_links := [] }

/-- A canonical record every text field of which is ampersand-free. -/
def c8CleanRaw : RawResume :=
  { name := some "Ana", job_title := some "Engineer",
    candidate_introduction := some "Ships software.",
    contact_information := some { email := some "ana@example.com",
                                  phone := none, location := none },
    experiences := [{ company := some "Acme", role := some "Engineer",
                      location := some "Remote",
                      start_date := some "2019", end_date := some "Atual",
                      bullets := ["Did Python work"], tech_stack := [] }],
    education := [{ institution := some "MIT", degree := some "BS",
                    start_date := some "2015-01",
                    end_date := some "2019-12" }],
    languages := [{ name := some "English", level := some "C2" }],
    external_links := [{ label := some "LinkedIn",
                         url := some "https://example.com" }] }

/-- `normalize_resume_payload` output for `c8CleanRaw`. -/
def c8CleanNorm : NormResume :=
  { name := "Ana", job_title := "Engineer",
    candidate_introduction := "Ships software.",
    contact_information := some { email := some "ana@example.com",
                                  phone := none, location := none },
    experiences := [{ company := "Acme", role := "Engineer",
                      location := some "Remote",
                      start_date := "2019-01", end_date := "Atual",
                      bullets := ["Did Python work"],
                      tech_stack := ["Python"] }],
    education := [{ institution := "MIT", degree := "BS",
                    start_date := "2015-01", end_date := "2019-12" }],
    languages := [{ name := "English", level := "C2" }],
    external_links := [{ label := "LinkedIn",
                         url := "https://example.com" }] }

/-! ## Claim theorems -/

/-- C1: the claim says a raw experience `start_date` equal to a
sentinel word makes `normalize_resume_payload` fail with a
date-normalization error and that a sentinel can never appear as a
canonical `start_date`.  In the code, line 300 of `normalization.py`
calls `normalize_date` with the default `allow_atual=True` (unlike the
education dates, which pass `allow_atual=False`), so the sentinel
passes through normalization into the canonical record and is only
rejected later by the `Experience` schema validator, whose `YYYY-MM`
pattern `"Atual"` does not match. -/
theorem c1_start_date_sentinel_passes :
    normalizeResumePayload c1Raw none = .ok c1Norm ∧
    c1Norm.experiences.map (·.start_date) = ["Atual"] ∧
    isYmToken "Atual" = false ∧
    normalizeDate "Atual" false =
      .error "Invalid date format: Atual" :=
  ⟨rfl, rfl, rfl, rfl⟩

/-- C4 counterexample: the claim says `normalizeDate("julho de 2021")`
resolves to `"2021-07"`.  The month-name pattern only admits
whitespace and punctuation between the name and the year, so the
Portuguese connector `"de"` makes the match fail and the call raises
the invalid-date error instead. -/
theorem c4_julho_counterexample :
    normalizeDate "julho de 2021" true =
      .error "Invalid date format: julho de 2021" ∧
    normalizeDate "julho de 2021" true ≠ .ok "2021-07" :=
  ⟨rfl, fun h => Except.noConfusion h⟩

/-- C4 amended: `normalizeDate` resolves `"2021-7"`, `"7/2021"` and
`"July 2021"` to `"2021-07"` and the bare year `"2021"` to
`"2021-01"`, and fails with the invalid-date error on `"13/2021"`
(month out of 1–12) and on `"julho de 2021"` (the month-name pattern
admits no `"de"` connector between name and year). -/
theorem c4_date_examples_amended :
    normalizeDate "2021-7" true = .ok "2021-07" ∧
    normalizeDate "7/2021" true = .ok "2021-07" ∧
    normalizeDate "July 2021" true = .ok "2021-07" ∧
    normalizeDate "2021" true = .ok "2021-01" ∧
    normalizeDate "13/2021" true = .error "Invalid date format: 13/2021" ∧
    normalizeDate "julho de 2021" true =
      .error "Invalid date format: julho de 2021" :=
  ⟨rfl, rfl, rfl, rfl, rfl, rfl⟩

/-- C6: the claim says the language-level enumeration is
`{A2, B1, B2, C1, C2, Native}` and that `"Native"` passes validation.
The `Language` model in `schemas.py` enumerates `"Nativo"` instead, so
`"Native"` — the very token the generation prompt in
`llm_client.py` instructs the model to produce — fails schema
validation, while `"Nativo"` and the CEFR levels pass. -/
theorem c6_language_level_enum :
    validLanguage { name := "English", level := "Native" } = false ∧
    validLanguage { name := "English", level := "Nativo" } = true ∧
    (["A2", "B1", "B2", "C1", "C2"].all
      (fun lv => validLanguage { name := "English", level := lv })) = true :=
  ⟨rfl, rfl, rfl⟩

/-- C7: the claim says the validated resume returned by the
generate-resume stage contains `contact_information` and
`external_links`.  `ResumeResponse` in `schemas.py` declares neither
field, and pydantic's default behaviour ignores unknown keyword
arguments, so the validated document is entirely independent of both
fields of the normalized record and carries only the six declared
fields — shown here by invariance under replacing them, plus the
concrete record `c7Norm`, whose non-empty external links and contact
information are absent from the validation result. -/
theorem c7_resume_response_drops_fields :
    (∀ (r : NormResume) (contact : Option NormContact)
       (links : List NormLink),
      buildResumeResponse
        { r with contact_information := contact, external_links := links } =
        buildResumeResponse r) ∧
    c7Norm.external_links = [{ label := "LinkedIn",
                               url := "https://example.com" }] ∧
    buildResumeResponse c7Norm =
      .ok { name := "Alice Smith", job_title := "Senior Engineer",
            candidate_introduction := "Experienced engineer.",
            experiences := c7Norm.experiences,
            education := c7Norm.education,
            languages := c7Norm.languages } :=
  ⟨fun _ _ _ => rfl, rfl, rfl⟩

/-- C9 counterexample: the claim says keywords are returned in
first-seen order over the corpus.  In the text
`"FastAPI and Python"` the keyword `FastAPI` is seen first, yet the
extractor scans the fixed vocabulary in order per text and returns
`["Python", "FastAPI"]`. -/
theorem c9_keyword_order_counterexample :
    extractTechKeywords [some "FastAPI and Python"] = ["Python", "FastAPI"] ∧
    extractTechKeywords [some "FastAPI and Python"] ≠ ["FastAPI", "Python"] :=
  ⟨rfl, by decide⟩

/-- C3 counterexample: the claim says key removal is decided after the
nested value has been pruned, so that a sequence collapsing to null
drops its parent key; then `prune({"a": [""], "d": "x"})` would be
`{"d": "x"}`.  The code filters keys on the *raw* value before
recursing, so the key `"a"` is kept and maps to null. -/
theorem c3_prune_counterexample :
    validateAndCleanJson c3Example2 =
      .ok (.obj (.cons "a" .null (.cons "d" (.str "x") .nil))) ∧
    validateAndCleanJson c3Example2 ≠
      .ok (.obj (.cons "d" (.str "x") .nil)) :=
  ⟨rfl, fun h => absurd (Except.ok.inj h) (by decide)⟩

/-! ### Helper lemmas for the retry wrapper and the metrics
aggregator. -/

theorem retryGo_attempts_le {α : Type} (outcomes : Nat → Except LLMFailure α) :
    ∀ (r a : Nat), (retryGo outcomes a r).attempts ≤ r + 1 := by
  intro r
  induction r with
  | zero =>
    intro a
    unfold retryGo
    cases h : outcomes a with
    | ok v => simp
    | error e => simp
  | succ n ih =>
    intro a
    unfold retryGo
    cases h : outcomes a with
    | ok v => simp
    | error e =>
      cases he : isRetryable e with
      | true =>
        simp only [h, he, if_true]
        have := ih (a + 1)
        omega
      | false => simp [h, he]

theorem backoffWait_big (n : Nat) (h : 4 ≤ n) : backoffWait n = 10 := by
  unfold backoffWait
  have h2 : (16 : Nat) ≤ 2 ^ n := by
    calc (16 : Nat) = 2 ^ 4 := rfl
    _ ≤ 2 ^ n := Nat.pow_le_pow_right (by norm_num) h
  omega

theorem foldl_recordStep_success (d : List (String × ℚ)) :
    ∀ s : MetricsState, (d.foldl recordStep s).success = s.success := by
  induction d with
  | nil => intro s; rfl
  | cons p rest ih => intro s; simpa [recordStep] using ih (recordStep s p)

theorem foldl_recordStep_error (d : List (String × ℚ)) :
    ∀ s : MetricsState, (d.foldl recordStep s).error = s.error := by
  induction d with
  | nil => intro s; rfl
  | cons p rest ih => intro s; simpa [recordStep] using ih (recordStep s p)

theorem foldl_recordStep_count_mono (d : List (String × ℚ)) :
    ∀ (s : MetricsState) (k : String),
      s.stepCount k ≤ (d.foldl recordStep s).stepCount k := by
  induction d with
  | nil => intro s k; exact le_refl _
  | cons p rest ih =>
    intro s k
    refine le_trans ?_ (ih (recordStep s p) k)
    by_cases hk : k = p.1 <;> simp [recordStep, hk]

theorem foldl_recordStep_total_mono (d : List (String × ℚ))
    (hd : ∀ p ∈ d, 0 ≤ p.2) :
    ∀ (s : MetricsState) (k : String),
      s.stepTotal k ≤ (d.foldl recordStep s).stepTotal k := by
  induction d with
  | nil => intro s k; exact le_refl _
  | cons p rest ih =>
    intro s k
    refine le_trans ?_ (ih (fun q hq => hd q (List.mem_cons_of_mem p hq))
      (recordStep s p) k)
    by_cases hk : k = p.1 <;> simp [recordStep, hk]
    have := hd p (List.mem_cons_self p rest)
    linarith

theorem runRequests_success (calls : List (String × List (String × ℚ))) :
    ∀ s : MetricsState, (runRequests calls s).success =
      s.success + calls.countP (fun c => decide (c.1 = "success")) := by
  induction calls with
  | nil => intro s; simp [runRequests]
  | cons c rest ih =>
    intro s
    have step : (recordRequest c.1 c.2 s).success =
        s.success + (if c.1 = "success" then 1 else 0) := by
      by_cases hc : c.1 = "success" <;>
        simp [recordRequest, hc, foldl_recordStep_success]
    simp only [runRequests, List.foldl_cons] at *
    rw [ih (recordRequest c.1 c.2 s), step, List.countP_cons]
    by_cases hc : c.1 = "success" <;> simp [hc] <;> omega

theorem runRequests_error (calls : List (String × List (String × ℚ))) :
    ∀ s : MetricsState, (runRequests calls s).error =
      s.error + calls.countP (fun c => decide (¬ c.1 = "success")) := by
  induction calls with
  | nil => intro s; simp [runRequests]
  | cons c rest ih =>
    intro s
    have step : (recordRequest c.1 c.2 s).error =
        s.error + (if c.1 = "success" then 0 else 1) := by
      by_cases hc : c.1 = "success" <;>
        simp [recordRequest, hc, foldl_recordStep_error]
    simp only [runRequests, List.foldl_cons] at *
    rw [ih (recordRequest c.1 c.2 s), step, List.countP_cons]
    by_cases hc : c.1 = "success" <;> simp [hc] <;> omega

/-- C2: the retry wrapper performs at most 3 attempts; a first-attempt
success returns after exactly 1 attempt; a non-retryable failure is
never retried and propagates unchanged after exactly 1 attempt; two
retryable failures followed by a success return the success after
exactly 3 attempts with sleeps of 2 then 4 units; on exhaustion the
*last* underlying error is re-raised unchanged; and the backoff
sequence starts at 2, doubles, and is capped at 10. -/
theorem c2_retry_policy (α : Type) (outcomes : Nat → Except LLMFailure α) :
    (llmCall outcomes).attempts ≤ 3 ∧
    (∀ a, outcomes 1 = .ok a → llmCall outcomes = ⟨.ok a, 1, []⟩) ∧
    (∀ e, outcomes 1 = .error e → isRetryable e = false →
      llmCall outcomes = ⟨.error e, 1, []⟩) ∧
    (∀ e1 e2 a, outcomes 1 = .error e1 → isRetryable e1 = true →
      outcomes 2 = .error e2 → isRetryable e2 = true → outcomes 3 = .ok a →
      llmCall outcomes = ⟨.ok a, 3, [2, 4]⟩) ∧
    (∀ e1 e2 e3, outcomes 1 = .error e1 → isRetryable e1 = true →
      outcomes 2 = .error e2 → isRetryable e2 = true →
      outcomes 3 = .error e3 →
      llmCall outcomes = ⟨.error e3, 3, [2, 4]⟩) ∧
    (backoffWait 1 = 2 ∧ ∀ n, 1 ≤ n →
      backoffWait (n + 1) = min (2 * backoffWait n) 10 ∧
      backoffWait n ≤ 10) := by
  refine ⟨retryGo_attempts_le outcomes 2 1, ?_, ?_, ?_, ?_, rfl, ?_⟩
  · intro a h
    simp [llmCall, retryGo, h]
  · intro e h he
    simp [llmCall, retryGo, h, he]
  · intro e1 e2 a h1 he1 h2 he2 h3
    simp [llmCall, retryGo, h1, he1, h2, he2, h3]
    decide
  · intro e1 e2 e3 h1 he1 h2 he2 h3
    simp [llmCall, retryGo, h1, he1, h2, he2, h3]
    decide
  · intro n hn
    rcases Nat.lt_or_ge n 4 with h4 | h4
    · interval_cases n <;> exact ⟨by decide, by decide⟩
    · rw [backoffWait_big (n + 1) (by omega), backoffWait_big n h4]
      exact ⟨rfl, le_refl 10⟩

/-- Witness for C2 at concrete outcome schedules: a schedule failing
twice with a timeout then succeeding yields the success after exactly
3 attempts with sleeps 2 and 4, and a schedule failing with malformed
JSON performs exactly 1 attempt. -/
theorem c2_retry_policy_witness :
    llmCall (fun n => if n < 3 then .error .apiTimeout else .ok 42) =
      ⟨.ok 42, 3, [2, 4]⟩ ∧
    llmCall (fun _ => (.error (.invalidJson "bad") : Except LLMFailure Nat)) =
      ⟨.error (.invalidJson "bad"), 1, []⟩ :=
  ⟨((c2_retry_policy Nat
      (fun n => if n < 3 then .error .apiTimeout else .ok 42)).2.2.2.1)
      .apiTimeout .apiTimeout 42 rfl rfl rfl rfl rfl,
   ((c2_retry_policy Nat
      (fun _ => .error (.invalidJson "bad"))).2.2.1)
      (.invalidJson "bad") rfl (by decide)⟩

/-- C10: every call to `record_request` bumps exactly one of the
success/error counters by one, never decreases any counter or per-step
count, and never decreases a per-step total when the recorded
durations are nonnegative (the callers always pass rounded elapsed
times); folding any serialized order of N success records and M
failure records into the fresh aggregator yields counts
`{success: N, error: M}`, independently of the interleaving. -/
theorem c10_metrics_append_only :
    (∀ (status : String) (d : List (String × ℚ)) (s : MetricsState),
      (status = "success" →
        (recordRequest status d s).success = s.success + 1 ∧
        (recordRequest status d s).error = s.error) ∧
      (¬ status = "success" →
        (recordRequest status d s).error = s.error + 1 ∧
        (recordRequest status d s).success = s.success) ∧
      s.success ≤ (recordRequest status d s).success ∧
      s.error ≤ (recordRequest status d s).error ∧
      (∀ k, s.stepCount k ≤ (recordRequest status d s).stepCount k) ∧
      ((∀ p ∈ d, 0 ≤ p.2) →
        ∀ k, s.stepTotal k ≤ (recordRequest status d s).stepTotal k)) ∧
    (∀ calls : List (String × List (String × ℚ)),
      (runRequests calls initialMetrics).success =
        calls.countP (fun c => decide (c.1 = "success")) ∧
      (runRequests calls initialMetrics).error =
        calls.countP (fun c => decide (¬ c.1 = "success"))) ∧
    (∀ calls1 calls2 : List (String × List (String × ℚ)),
      calls1.Perm calls2 →
      (runRequests calls1 initialMetrics).success =
        (runRequests calls2 initialMetrics).success ∧
      (runRequests calls1 initialMetrics).error =
        (runRequests calls2 initialMetrics).error) := by
  refine ⟨?_, ?_, ?_⟩
  · intro status d s
    refine ⟨?_, ?_, ?_, ?_, ?_, ?_⟩
    · intro hs
      constructor
      · simp [recordRequest, hs, foldl_recordStep_success]
      · simp [recordRequest, hs, foldl_recordStep_error]
    · intro hs
      constructor
      · simp [recordRequest, hs, foldl_recordStep_error]
      · simp [recordRequest, hs, foldl_recordStep_success]
    · by_cases hs : status = "success" <;>
        simp [recordRequest, hs, foldl_recordStep_success]
    · by_cases hs : status = "success" <;>
        simp [recordRequest, hs, foldl_recordStep_error]
    · intro k
      by_cases hs : status = "success"
      · simpa [recordRequest, hs] using
          foldl_recordStep_count_mono d { s with success := s.success + 1 } k
      · simpa [recordRequest, hs] using
          foldl_recordStep_count_mono d { s with error := s.error + 1 } k
    · intro hd k
      by_cases hs : status = "success"
      · simpa [recordRequest, hs] using
          foldl_recordStep_total_mono d hd { s with success := s.success + 1 } k
      · simpa [recordRequest, hs] using
          foldl_recordStep_total_mono d hd { s with error := s.error + 1 } k
  · intro calls
    constructor
    · simpa [initialMetrics] using runRequests_success calls initialMetrics
    · simpa [initialMetrics] using runRequests_error calls initialMetrics
  · intro calls1 calls2 hp
    constructor
    · rw [runRequests_success calls1 initialMetrics,
        runRequests_success calls2 initialMetrics, hp.countP_eq]
    · rw [runRequests_error calls1 initialMetrics,
        runRequests_error calls2 initialMetrics, hp.countP_eq]

/-- Witness for C10: one successful record with a nonnegative step
duration bumps only the success counter and keeps the step total
monotone, and a serialized run of two successes and one failure yields
counts `{success: 2, error: 1}`. -/
theorem c10_metrics_append_only_witness :
    (recordRequest "success" [("extract_payload", 5)] initialMetrics).success
        = 1 ∧
    initialMetrics.stepTotal "extract_payload" ≤
      (recordRequest "success" [("extract_payload", 5)]
        initialMetrics).stepTotal "extract_payload" ∧
    (runRequests [("success", []), ("error", []), ("success", [])]
      initialMetrics).success = 2 ∧
    (runRequests [("success", []), ("error", []), ("success", [])]
      initialMetrics).error = 1 := by
  have h := c10_metrics_append_only
  refine ⟨?_, ?_, ?_, ?_⟩
  · exact ((h.1 "success" [("extract_payload", 5)] initialMetrics).1 rfl).1
  · exact (h.1 "success" [("extract_payload", 5)] initialMetrics).2.2.2.2.2
      (by intro p hp; simp only [List.mem_singleton] at hp; subst hp; norm_num)
      "extract_payload"
  · exact (h.2.1 [("success", []), ("error", []), ("success", [])]).1.trans
      (by decide)
  · exact (h.2.1 [("success", []), ("error", []), ("success", [])]).2.trans
      (by decide)

/-! ### Payload sanitizer lemmas (C3). -/

theorem cleanJObj_eq_nil_iff : ∀ fs : JObj,
    cleanJObj fs = .nil ↔ jobjAllEmptyRaw fs = true
  | .nil => by simp [cleanJObj, jobjAllEmptyRaw]
  | .cons k v rest => by
    have ih := cleanJObj_eq_nil_iff rest
    by_cases hv : jIsEmptyRaw v = true
    · simp [cleanJObj, jobjAllEmptyRaw, hv, ih]
    · simp [cleanJObj, jobjAllEmptyRaw, hv]

/-- C3 amended: key removal is decided on the *raw* value before the
nested value is pruned, so a kept key whose sequence collapses to null
retains the null (third conjunct); the claim's two worked examples
hold as stated (first two conjuncts); and for a non-empty top-level
object, pruning fails with the empty-payload error exactly when every
raw top-level value is null, an empty string or an empty sequence. -/
theorem c3_prune_amended :
    validateAndCleanJson c3Example1 =
      .ok (.obj (.cons "d" (.str "x") .nil)) ∧
    validateAndCleanJson (.obj (.cons "a" .null .nil)) =
      .error "All fields are empty after cleaning" ∧
    validateAndCleanJson c3Example2 =
      .ok (.obj (.cons "a" .null (.cons "d" (.str "x") .nil))) ∧
    (∀ fs : JObj, fs ≠ .nil →
      (validateAndCleanJson (.obj fs) =
          .error "All fields are empty after cleaning" ↔
        jobjAllEmptyRaw fs = true)) := by
  refine ⟨rfl, rfl, rfl, ?_⟩
  intro fs hfs
  cases fs with
  | nil => exact absurd rfl hfs
  | cons k v rest =>
    show (match cleanJObj (.cons k v rest) with
      | .nil => Except.error "All fields are empty after cleaning"
      | cleaned => Except.ok (JVal.obj cleaned)) =
        Except.error "All fields are empty after cleaning" ↔ _
    cases h : cleanJObj (.cons k v rest) with
    | nil =>
      simp only [h]
      rw [← cleanJObj_eq_nil_iff]
      simp [h]
    | cons k2 v2 rest2 =>
      simp only [h]
      constructor
      · intro hcontra; exact absurd hcontra (by simp)
      · intro hall
        exact absurd ((cleanJObj_eq_nil_iff _).mpr hall) (by simp [h])

/-- Witness for C3 amended at a concrete non-empty all-empty object. -/
theorem c3_prune_amended_witness :
    validateAndCleanJson
        (.obj (.cons "empty" (.str "") (.cons "gone" .null .nil))) =
      .error "All fields are empty after cleaning" :=
  (c3_prune_amended.2.2.2 (.cons "empty" (.str "") (.cons "gone" .null .nil))
    (fun h => JObj.noConfusion h)).mpr rfl

/-! ### Keyword extractor lemmas (C9). -/

theorem mem_foldl_kwStep (s : String) : ∀ (ks acc : List String) (kw : String),
    kw ∈ ks.foldl (kwStep s) acc →
    kw ∈ acc ∨ (kw ∈ ks ∧ kwMatch kw s = true) := by
  intro ks
  induction ks with
  | nil => intro acc kw h; exact Or.inl h
  | cons k ks ih =>
    intro acc kw h
    simp only [List.foldl_cons] at h
    rcases ih (kwStep s acc k) kw h with h1 | h1
    · by_cases hc : k ∈ acc
      · simp [kwStep, hc] at h1
        exact Or.inl h1
      · by_cases hm : kwMatch k s = true
        · simp [kwStep, hc, hm] at h1
          rcases h1 with h2 | h2
          · exact Or.inl h2
          · subst h2
            exact Or.inr ⟨List.mem_cons_self _ _, hm⟩
        · simp [kwStep, hc, hm] at h1
          exact Or.inl h1
    · exact Or.inr ⟨List.mem_cons_of_mem _ h1.1, h1.2⟩

theorem nodup_foldl_kwStep (s : String) : ∀ (ks acc : List String),
    acc.Nodup → (ks.foldl (kwStep s) acc).Nodup := by
  intro ks
  induction ks with
  | nil => intro acc h; exact h
  | cons k ks ih =>
    intro acc h
    simp only [List.foldl_cons]
    refine ih (kwStep s acc k) ?_
    by_cases hc : k ∈ acc
    · simp [kwStep, hc, h]
    · by_cases hm : kwMatch k s = true
      · simp only [kwStep, hm]
        simp [hc, List.nodup_append, h]
      · simp [kwStep, hc, hm, h]

theorem foldl_kwStep_eq_filter (s : String) : ∀ (ks acc : List String),
    ks.Nodup → (∀ kw ∈ ks, kw ∉ acc) →
    ks.foldl (kwStep s) acc = acc ++ ks.filter (fun kw => kwMatch kw s) := by
  intro ks
  induction ks with
  | nil => intro acc _ _; simp
  | cons k ks ih =>
    intro acc hnd hdisj
    have hk : k ∉ acc := hdisj k (List.mem_cons_self _ _)
    simp only [List.foldl_cons, List.filter_cons]
    by_cases hm : kwMatch k s = true
    · have step : kwStep s acc k = acc ++ [k] := by simp [kwStep, hk, hm]
      rw [step, ih (acc ++ [k]) hnd.of_cons ?_]
      · simp [hm]
      · intro kw hkw
        simp only [List.mem_append, List.mem_singleton]
        rintro (hin | rfl)
        · exact hdisj kw (List.mem_cons_of_mem _ hkw) hin
        · exact (List.nodup_cons.mp hnd).1 hkw
    · have step : kwStep s acc k = acc := by simp [kwStep, hk, hm]
      rw [step, ih acc hnd.of_cons
        (fun kw hkw => hdisj kw (List.mem_cons_of_mem _ hkw))]
      simp [hm]

theorem mem_foldl_kwScanText : ∀ (ts : List (Option String))
    (acc : List String) (kw : String),
    kw ∈ ts.foldl kwScanText acc →
    kw ∈ acc ∨ ∃ s, some s ∈ ts ∧ s ≠ "" ∧ kw ∈ RAW_TECH_KEYWORDS ∧
      kwMatch kw s = true := by
  intro ts
  induction ts with
  | nil => intro acc kw h; exact Or.inl h
  | cons t ts ih =>
    intro acc kw h
    simp only [List.foldl_cons] at h
    rcases ih (kwScanText acc t) kw h with h1 | h1
    · match t with
      | none => exact Or.inl h1
      | some s =>
        by_cases hs : s = ""
        · subst hs
          simp [kwScanText] at h1
          exact Or.inl h1
        · simp only [kwScanText] at h1
          rw [if_neg (by simpa using hs)] at h1
          rcases mem_foldl_kwStep s RAW_TECH_KEYWORDS acc kw h1 with h2 | h2
          · exact Or.inl h2
          · exact Or.inr ⟨s, by simp, hs, h2.1, h2.2⟩
    · rcases h1 with ⟨s, hmem, hs, hv, hm⟩
      exact Or.inr ⟨s, List.mem_cons_of_mem _ hmem, hs, hv, hm⟩

theorem nodup_foldl_kwScanText : ∀ (ts : List (Option String))
    (acc : List String), acc.Nodup → (ts.foldl kwScanText acc).Nodup := by
  intro ts
  induction ts with
  | nil => intro acc h; exact h
  | cons t ts ih =>
    intro acc h
    simp only [List.foldl_cons]
    refine ih (kwScanText acc t) ?_
    match t with
    | none => exact h
    | some s =>
      by_cases hs : s = ""
      · subst hs; simpa [kwScanText] using h
      · simp only [kwScanText]
        rw [if_neg (by simpa using hs)]
        exact nodup_foldl_kwStep s RAW_TECH_KEYWORDS acc h

theorem rawTechKeywords_nodup : RAW_TECH_KEYWORDS.Nodup := by decide

/-- C9 amended: the extractor returns at most 10 labels, with no
duplicates, each drawn from the fixed vocabulary and word-boundary
matched against at least one non-empty input text; texts are scanned
separately (no concatenated corpus), and for a single text the result
is exactly the vocabulary-ordered filter of matching labels truncated
to 10 — vocabulary order, not first-seen order. -/
theorem c9_keywords_amended :
    (∀ ts : List (Option String),
      (extractTechKeywords ts).length ≤ 10 ∧
      (extractTechKeywords ts).Nodup ∧
      (∀ kw ∈ extractTechKeywords ts, kw ∈ RAW_TECH_KEYWORDS ∧
        ∃ s, some s ∈ ts ∧ s ≠ "" ∧ kwMatch kw s = true)) ∧
    (∀ t : String, ¬ t = "" →
      extractTechKeywords [some t] =
        (RAW_TECH_KEYWORDS.filter (fun kw => kwMatch kw t)).take 10) := by
  constructor
  · intro ts
    refine ⟨List.length_take_le _ _, ?_, ?_⟩
    · exact List.Nodup.sublist (List.take_sublist _ _)
        (nodup_foldl_kwScanText ts [] List.nodup_nil)
    · intro kw hkw
      have h1 := List.mem_of_mem_take hkw
      rcases mem_foldl_kwScanText ts [] kw h1 with h2 | h2
      · exact absurd h2 (List.not_mem_nil kw)
      · rcases h2 with ⟨s, hmem, hs, hv, hm⟩
        exact ⟨hv, s, hmem, hs, hm⟩
  · intro t ht
    simp only [extractTechKeywords, List.foldl_cons, List.foldl_nil,
      kwScanText]
    rw [if_neg (by simpa using ht)]
    rw [foldl_kwStep_eq_filter t RAW_TECH_KEYWORDS [] rawTechKeywords_nodup
      (by intro kw _; exact List.not_mem_nil kw)]
    simp


/-- Witness for C9 amended at a concrete single text. -/
theorem c9_keywords_amended_witness :
    extractTechKeywords [some "Django and Flask"] =
      (RAW_TECH_KEYWORDS.filter
        (fun kw => kwMatch kw "Django and Flask")).take 10 ∧
    extractTechKeywords [some "Django and Flask"] = ["Flask", "Django"] :=
  ⟨c9_keywords_amended.2 "Django and Flask" (by decide), rfl⟩

/-! ### Date sentinel lemmas (C5). -/

theorem charOfNat_toNat (n : Nat) (h : n.isValidChar) :
    (Char.ofNat n).toNat = n := by
  unfold Char.ofNat
  simp [Char.ofNatAux, h, Char.toNat]
  rfl

theorem toLowerC_isDigitC (c : Char) : isDigitC (toLowerC c) = isDigitC c := by
  unfold toLowerC
  by_cases h1 : (65 ≤ c.toNat && c.toNat ≤ 90) = true
  · rw [if_pos h1]
    simp only [Bool.and_eq_true, decide_eq_true_eq] at h1
    have hv : (c.toNat + 32).isValidChar := Or.inl (by omega)
    unfold isDigitC
    rw [charOfNat_toNat _ hv]
    have l1 : decide (c.toNat + 32 ≤ 57) = false :=
      decide_eq_false (by omega)
    have l2 : decide (c.toNat ≤ 57) = false :=
      decide_eq_false (by omega)
    rw [l1, l2, Bool.and_false, Bool.and_false]
  · rw [if_neg h1]
    by_cases h2 : (c == 'Ç') = true
    · rw [if_pos h2]
      have : c = 'Ç' := by simpa using h2
      subst this
      decide
    · rw [if_neg h2]

theorem takeWhile_eq_nil_of_all_false {p : Char → Bool} :
    ∀ l : List Char, (∀ c ∈ l, p c = false) → l.takeWhile p = [] := by
  intro l h
  cases l with
  | nil => rfl
  | cons c rest =>
    simp [List.takeWhile_cons, h c (List.mem_cons_self _ _)]

/-- C5: for every input whose cleaned form is (case-insensitively) one
of the sentinel words current/present/ongoing/now/atual, `normalizeDate`
returns the ongoing sentinel token (`"Atual"` — the reserved ongoing
value of this codebase, validated as such by the `Experience` schema)
when `allow_atual` is true, and fails with the invalid-date error when
`allow_atual` is false. -/
theorem c5_sentinel_mapping (s raw : String)
    (hclean : cleanText (some s) 40 = some raw)
    (hsent : isSentinelWord (lowerStr raw) = true) :
    normalizeDate s true = .ok "Atual" ∧
    normalizeDate s false = .error ("Invalid date format: " ++ s) := by
  have hwords : lowerStr raw = "atual" ∨ lowerStr raw = "current" ∨
      lowerStr raw = "present" ∨ lowerStr raw = "ongoing" ∨
      lowerStr raw = "now" := by
    unfold isSentinelWord at hsent
    simp only [Bool.or_eq_true, beq_iff_eq] at hsent
    tauto
  have hmapData : raw.data.map toLowerC = (lowerStr raw).data := rfl
  have hnodg : ∀ c ∈ raw.data, isDigitC c = false := by
    intro c hc
    have hmem : toLowerC c ∈ (lowerStr raw).data := by
      rw [← hmapData]
      exact List.mem_map_of_mem _ hc
    rw [← toLowerC_isDigitC]
    rcases hwords with hw | hw | hw | hw | hw
    · rw [hw] at hmem
      have hall : ∀ d ∈ ("atual" : String).data, isDigitC d = false := by
        decide
      exact hall _ hmem
    · rw [hw] at hmem
      have hall : ∀ d ∈ ("current" : String).data, isDigitC d = false := by
        decide
      exact hall _ hmem
    · rw [hw] at hmem
      have hall : ∀ d ∈ ("present" : String).data, isDigitC d = false := by
        decide
      exact hall _ hmem
    · rw [hw] at hmem
      have hall : ∀ d ∈ ("ongoing" : String).data, isDigitC d = false := by
        decide
      exact hall _ hmem
    · rw [hw] at hmem
      have hall : ∀ d ∈ ("now" : String).data, isDigitC d = false := by
        decide
      exact hall _ hmem
  have hp1 : tryNumeric (parseYmd raw.data) = none := by
    simp [parseYmd, takeWhile_eq_nil_of_all_false raw.data hnodg, tryNumeric]
  have hp2 : tryNumeric (parseMdy raw.data) = none := by
    simp [parseMdy, takeWhile_eq_nil_of_all_false raw.data hnodg, tryNumeric]
  have hp3 : parseNameYear (lowerStr raw).data = none := by
    rcases hwords with hw | hw | hw | hw | hw <;> rw [hw] <;> decide
  have hlen : raw.data.length = (lowerStr raw).data.length := by
    rw [← hmapData, List.length_map]
  have hlen4 : (raw.data.length == 4) = false := by
    rcases hwords with hw | hw | hw | hw | hw <;>
      · rw [hw] at hlen
        rw [hlen]
        decide
  have hp4 : parseYearOnly raw.data = none := by
    unfold parseYearOnly
    rw [show (raw.data.all isDigitC && (raw.data.length == 4)) = false from
      by rw [hlen4, Bool.and_false]]
    rfl
  constructor
  · unfold normalizeDate
    rw [hclean]
    show (if true && isSentinelWord (lowerStr raw) then Except.ok "Atual"
      else _) = Except.ok "Atual"
    rw [Bool.true_and, if_pos hsent]
  · unfold normalizeDate
    rw [hclean]
    simp only [Bool.false_and, Bool.false_eq_true, if_false, hp1, hp2,
      hp3, hp4]


/-- Witness for C5 at the concrete input `"Atual"`. -/
theorem c5_sentinel_mapping_witness :
    cleanText (some "Atual") 40 = some "Atual" ∧
    isSentinelWord (lowerStr "Atual") = true ∧
    normalizeDate "Atual" true = .ok "Atual" ∧
    normalizeDate "Atual" false = .error "Invalid date format: Atual" :=
  ⟨rfl, rfl, (c5_sentinel_mapping "Atual" "Atual" rfl rfl).1,
   ((c5_sentinel_mapping "Atual" "Atual" rfl rfl).2).trans rfl⟩

/-! ### Fixed-point analysis of the sanitation pipeline (C8).

First, HTML-entity decoding and tag stripping are the identity on
ampersand-free, tag-free text, and tag stripping always produces
tag-free text. -/

theorem unescapeFuel_of_noAmp : ∀ (n : Nat) (l : List Char),
    noAmp l = true → unescapeFuel n l = l := by
  intro n
  induction n with
  | zero => intro l _; rfl
  | succ m ih =>
    intro l h
    rw [noAmp, decide_eq_true_eq] at h
    cases l with
    | nil => rfl
    | cons c rest =>
      have hc : (c == '&') = false := by
        rw [beq_eq_false_iff_ne]
        intro hcc
        exact h (hcc ▸ List.mem_cons_self _ _)
      simp only [unescapeFuel, hc, Bool.false_eq_true, if_false,
        List.cons.injEq, true_and]
      exact ih rest (by
        rw [noAmp, decide_eq_true_eq]
        exact fun hm => h (List.mem_cons_of_mem _ hm))

theorem findGt_eq_none (l : List Char) (h : '>' ∉ l) : findGt l = none := by
  induction l with
  | nil => rfl
  | cons c rest ih =>
    have hc : (c == '>') = false := by
      rw [beq_eq_false_iff_ne]
      intro hcc
      exact h (hcc ▸ List.mem_cons_self _ _)
    simp only [findGt, hc, Bool.false_eq_true, if_false]
    exact ih (fun hm => h (List.mem_cons_of_mem _ hm))

theorem findGt_isSome (l : List Char) (h : '>' ∈ l) :
    ∃ r, findGt l = some r := by
  induction l with
  | nil => exact absurd h (List.not_mem_nil _)
  | cons c rest ih =>
    by_cases hc : (c == '>') = true
    · exact ⟨rest, by simp [findGt, hc]⟩
    · have hm : '>' ∈ rest := by
        rcases List.mem_cons.mp h with h1 | h1
        · exact absurd (beq_iff_eq.mpr h1.symm) (by simpa using hc)
        · exact h1
      rcases ih hm with ⟨r, hr⟩
      exact ⟨r, by simp [findGt, hc, hr]⟩

theorem findGt_length : ∀ l r : List Char, findGt l = some r →
    r.length < l.length := by
  intro l
  induction l with
  | nil => intro r h; exact absurd h (by simp [findGt])
  | cons c rest ih =>
    intro r h
    by_cases hc : (c == '>') = true
    · simp only [findGt, hc, if_true, Option.some.injEq] at h
      subst h
      simp
    · simp only [findGt, hc, Bool.false_eq_true, if_false] at h
      exact Nat.lt_trans (ih r h) (by simp)

theorem findGt_mem : ∀ l r : List Char, findGt l = some r →
    ∀ c ∈ r, c ∈ l := by
  intro l
  induction l with
  | nil => intro r h; exact absurd h (by simp [findGt])
  | cons c rest ih =>
    intro r h d hd
    by_cases hc : (c == '>') = true
    · simp only [findGt, hc, if_true, Option.some.injEq] at h
      subst h
      exact List.mem_cons_of_mem _ hd
    · simp only [findGt, hc, Bool.false_eq_true, if_false] at h
      exact List.mem_cons_of_mem _ (ih r h d hd)


theorem stripHtmlFuel_nil : ∀ m : Nat, stripHtmlFuel m [] = [] := by
  intro m
  cases m with
  | zero => rfl
  | succ k => rfl

theorem tagFree_lt_cons_eq (d : Char) (rest2 : List Char) :
    tagFree ('<' :: d :: rest2) =
      (((d == '>') || !((d :: rest2).contains '>')) &&
        tagFree (d :: rest2)) := rfl

theorem tagFree_cons_ne_eq (c : Char) (X : List Char)
    (hc : (c == '<') = false) : tagFree (c :: X) = tagFree X := by
  simp only [tagFree, hc, Bool.false_eq_true, if_false, Bool.true_and]

theorem tagFree_tail (c : Char) (X : List Char)
    (h : tagFree (c :: X) = true) : tagFree X = true := by
  have : tagFree (c :: X) = (_ && tagFree X) := rfl
  rw [this, Bool.and_eq_true] at h
  exact h.2

theorem tagFree_cons_of_ne (c : Char) (X : List Char)
    (hc : (c == '<') = false) (h : tagFree X = true) :
    tagFree (c :: X) = true := by
  rw [tagFree_cons_ne_eq c X hc]
  exact h

theorem tagFree_cons_lt_of_not_mem (X : List Char) (hmem : '>' ∉ X)
    (h : tagFree X = true) : tagFree ('<' :: X) = true := by
  cases X with
  | nil => rfl
  | cons e Xr =>
    have hcont : (e :: Xr).contains '>' = false := by simpa using hmem
    rw [tagFree_lt_cons_eq, hcont]
    simp [h]

theorem stripHtmlFuel_eq : ∀ (n : Nat) (l : List Char) (m : Nat),
    l.length ≤ n → l.length ≤ m → stripHtmlFuel n l = stripHtmlFuel m l := by
  intro n
  induction n with
  | zero =>
    intro l m hn _
    have : l = [] := List.eq_nil_of_length_eq_zero (Nat.le_zero.mp hn)
    subst this
    rw [stripHtmlFuel_nil, stripHtmlFuel_nil]
  | succ k ih =>
    intro l m hn hm
    cases l with
    | nil => rw [stripHtmlFuel_nil, stripHtmlFuel_nil]
    | cons c rest =>
      cases m with
      | zero => simp at hm
      | succ m2 =>
        simp only [List.length_cons, Nat.succ_le_succ_iff] at hn hm
        by_cases hc : (c == '<') = true
        · cases rest with
          | nil => simp [stripHtmlFuel, hc]
          | cons d rest2 =>
            by_cases hd : (d == '>') = true
            · simp only [stripHtmlFuel, hc, if_true, hd]
              rw [ih (d :: rest2) m2 hn hm]
            · cases hfg : findGt rest2 with
              | some rest3 =>
                have hlen3 := findGt_length rest2 rest3 hfg
                have hl3 : rest3.length ≤ k := by
                  simp only [List.length_cons] at hn
                  omega
                have hl3m : rest3.length ≤ m2 := by
                  simp only [List.length_cons] at hm
                  omega
                show (if (c == '<') = true then _ else _) =
                  (if (c == '<') = true then _ else _)
                rw [if_pos hc, if_pos hc]
                show (if (d == '>') = true then _ else _) =
                  (if (d == '>') = true then _ else _)
                rw [if_neg hd, if_neg hd, hfg]
                show ' ' :: stripHtmlFuel k rest3 =
                  ' ' :: stripHtmlFuel m2 rest3
                rw [ih rest3 m2 hl3 hl3m]
              | none =>
                show (if (c == '<') = true then _ else _) =
                  (if (c == '<') = true then _ else _)
                rw [if_pos hc, if_pos hc]
                show (if (d == '>') = true then _ else _) =
                  (if (d == '>') = true then _ else _)
                rw [if_neg hd, if_neg hd, hfg]
                show '<' :: stripHtmlFuel k (d :: rest2) =
                  '<' :: stripHtmlFuel m2 (d :: rest2)
                rw [ih (d :: rest2) m2 hn hm]
        · simp only [stripHtmlFuel, hc, Bool.false_eq_true, if_false]
          rw [ih rest m2 hn hm]

theorem stripHtmlFuel_of_tagFree : ∀ (n : Nat) (l : List Char),
    tagFree l = true → stripHtmlFuel n l = l := by
  intro n
  induction n with
  | zero => intro l _; rfl
  | succ k ih =>
    intro l h
    cases l with
    | nil => rfl
    | cons c rest =>
      by_cases hc : (c == '<') = true
      · have hcq : c = '<' := by simpa using hc
        subst hcq
        cases rest with
        | nil => rfl
        | cons d rest2 =>
          rw [tagFree_lt_cons_eq, Bool.and_eq_true] at h
          rcases h with ⟨hcond, htail⟩
          by_cases hd : (d == '>') = true
          · show (if ('<' == '<') = true then _ else _) = _
            rw [if_pos (by decide)]
            show (if (d == '>') = true then _ else _) = _
            rw [if_pos hd]
            show '<' :: stripHtmlFuel k (d :: rest2) = '<' :: d :: rest2
            rw [ih (d :: rest2) htail]
          · have hmem : (d :: rest2).contains '>' = false := by
              rcases Bool.or_eq_true_iff.mp hcond with h1 | h1
              · exact absurd h1 (by simpa using hd)
              · simpa using h1
            have hng : findGt rest2 = none := by
              apply findGt_eq_none
              intro hgt
              have h2 : '>' ∈ (d :: rest2) := List.mem_cons_of_mem _ hgt
              rw [← List.elem_iff] at h2
              rw [show (d :: rest2).contains '>' = (d :: rest2).elem '>'
                from rfl] at hmem
              rw [hmem] at h2
              exact Bool.noConfusion h2
            show (if ('<' == '<') = true then _ else _) = _
            rw [if_pos (by decide)]
            show (if (d == '>') = true then _ else _) = _
            rw [if_neg hd, hng]
            show '<' :: stripHtmlFuel k (d :: rest2) = '<' :: d :: rest2
            rw [ih (d :: rest2) htail]
      · show (if (c == '<') = true then _ else _) = _
        rw [if_neg hc]
        show c :: stripHtmlFuel k rest = c :: rest
        rw [ih rest (tagFree_tail c rest h)]

theorem mem_stripHtmlFuel : ∀ (n : Nat) (l : List Char) (c : Char),
    c ∈ stripHtmlFuel n l → c ∈ l ∨ c = ' ' := by
  intro n
  induction n with
  | zero => intro l c h; exact Or.inl h
  | succ k ih =>
    intro l c h
    cases l with
    | nil => exact Or.inl h
    | cons c0 rest =>
      by_cases hc : (c0 == '<') = true
      · cases rest with
        | nil =>
          have : stripHtmlFuel (k + 1) [c0] = [c0] := by
            have hcq : c0 = '<' := by simpa using hc
            subst hcq
            rfl
          rw [this] at h
          exact Or.inl h
        | cons d rest2 =>
          by_cases hd : (d == '>') = true
          · have hred : stripHtmlFuel (k + 1) (c0 :: d :: rest2) =
                '<' :: stripHtmlFuel k (d :: rest2) := by
              show (if (c0 == '<') = true then _ else _) = _
              rw [if_pos hc]
              show (if (d == '>') = true then _ else _) = _
              rw [if_pos hd]
            rw [hred] at h
            rcases List.mem_cons.mp h with h1 | h1
            · subst h1
              exact Or.inl (by
                have : c0 = '<' := by simpa using hc
                rw [this]
                exact List.mem_cons_self _ _)
            · rcases ih (d :: rest2) c h1 with h2 | h2
              · exact Or.inl (List.mem_cons_of_mem _ h2)
              · exact Or.inr h2
          · cases hfg : findGt rest2 with
            | some rest3 =>
              have hred : stripHtmlFuel (k + 1) (c0 :: d :: rest2) =
                  ' ' :: stripHtmlFuel k rest3 := by
                show (if (c0 == '<') = true then _ else _) = _
                rw [if_pos hc]
                show (if (d == '>') = true then _ else _) = _
                rw [if_neg hd, hfg]
              rw [hred] at h
              rcases List.mem_cons.mp h with h1 | h1
              · exact Or.inr h1
              · rcases ih rest3 c h1 with h2 | h2
                · exact Or.inl (List.mem_cons_of_mem _
                    (List.mem_cons_of_mem _ (findGt_mem rest2 rest3 hfg c h2)))
                · exact Or.inr h2
            | none =>
              have hred : stripHtmlFuel (k + 1) (c0 :: d :: rest2) =
                  '<' :: stripHtmlFuel k (d :: rest2) := by
                show (if (c0 == '<') = true then _ else _) = _
                rw [if_pos hc]
                show (if (d == '>') = true then _ else _) = _
                rw [if_neg hd, hfg]
              rw [hred] at h
              rcases List.mem_cons.mp h with h1 | h1
              · subst h1
                exact Or.inl (by
                  have : c0 = '<' := by simpa using hc
                  rw [this]
                  exact List.mem_cons_self _ _)
              · rcases ih (d :: rest2) c h1 with h2 | h2
                · exact Or.inl (List.mem_cons_of_mem _ h2)
                · exact Or.inr h2
      · have hred : stripHtmlFuel (k + 1) (c0 :: rest) =
            c0 :: stripHtmlFuel k rest := by
          show (if (c0 == '<') = true then _ else _) = _
          rw [if_neg hc]
        rw [hred] at h
        rcases List.mem_cons.mp h with h1 | h1
        · subst h1
          exact Or.inl (List.mem_cons_self _ _)
        · rcases ih rest c h1 with h2 | h2
          · exact Or.inl (List.mem_cons_of_mem _ h2)
          · exact Or.inr h2

theorem tagFree_stripHtmlFuel : ∀ (n : Nat) (l : List Char),
    l.length ≤ n → tagFree (stripHtmlFuel n l) = true := by
  intro n
  induction n with
  | zero =>
    intro l hl
    have : l = [] := List.eq_nil_of_length_eq_zero (Nat.le_zero.mp hl)
    subst this
    rfl
  | succ k ih =>
    intro l hl
    cases l with
    | nil => rfl
    | cons c rest =>
      simp only [List.length_cons, Nat.succ_le_succ_iff] at hl
      by_cases hc : (c == '<') = true
      · have hcq : c = '<' := by simpa using hc
        subst hcq
        cases rest with
        | nil => rfl
        | cons d rest2 =>
          by_cases hd : (d == '>') = true
          · have hdq : d = '>' := by simpa using hd
            subst hdq
            have hred : stripHtmlFuel (k + 1) ('<' :: '>' :: rest2) =
                '<' :: stripHtmlFuel k ('>' :: rest2) := by
              show (if ('<' == '<') = true then _ else _) = _
              rw [if_pos (by decide)]
              show (if ('>' == '>') = true then _ else _) = _
              rw [if_pos (by decide)]
            rw [hred]
            simp only [List.length_cons] at hl
            obtain ⟨k2, rfl⟩ : ∃ k2, k = k2 + 1 := ⟨k - 1, by omega⟩
            have hred2 : stripHtmlFuel (k2 + 1) ('>' :: rest2) =
                '>' :: stripHtmlFuel k2 rest2 := by
              show (if ('>' == '<') = true then _ else _) = _
              rw [if_neg (by decide)]
            rw [hred2, tagFree_lt_cons_eq]
            have hx : tagFree ('>' :: stripHtmlFuel k2 rest2) = true := by
              rw [tagFree_cons_ne_eq _ _ (by decide)]
              rw [stripHtmlFuel_eq k2 rest2 (k2 + 1) (by omega) (by omega)]
              exact ih rest2 (by omega)
            rw [hx]
            simp
          · cases hfg : findGt rest2 with
            | some rest3 =>
              have hred : stripHtmlFuel (k + 1) ('<' :: d :: rest2) =
                  ' ' :: stripHtmlFuel k rest3 := by
                show (if ('<' == '<') = true then _ else _) = _
                rw [if_pos (by decide)]
                show (if (d == '>') = true then _ else _) = _
                rw [if_neg hd, hfg]
              rw [hred]
              rw [tagFree_cons_ne_eq _ _ (by decide)]
              have hlen3 := findGt_length rest2 rest3 hfg
              simp only [List.length_cons] at hl
              exact ih rest3 (by omega)
            | none =>
              have hred : stripHtmlFuel (k + 1) ('<' :: d :: rest2) =
                  '<' :: stripHtmlFuel k (d :: rest2) := by
                show (if ('<' == '<') = true then _ else _) = _
                rw [if_pos (by decide)]
                show (if (d == '>') = true then _ else _) = _
                rw [if_neg hd, hfg]
              rw [hred]
              have hnotmem : '>' ∉ stripHtmlFuel k (d :: rest2) := by
                intro hmem
                rcases mem_stripHtmlFuel k (d :: rest2) '>' hmem with h1 | h1
                · rcases List.mem_cons.mp h1 with h2 | h2
                  · exact absurd (beq_iff_eq.mpr h2.symm) (by simpa using hd)
                  · rcases findGt_isSome rest2 h2 with ⟨r, hr⟩
                    rw [hr] at hfg
                    exact Option.noConfusion hfg
                · exact absurd h1 (by decide)
              exact tagFree_cons_lt_of_not_mem _ hnotmem (ih (d :: rest2) hl)
      · have hred : stripHtmlFuel (k + 1) (c :: rest) =
            c :: stripHtmlFuel k rest := by
          show (if (c == '<') = true then _ else _) = _
          rw [if_neg hc]
        rw [hred]
        exact tagFree_cons_of_ne _ _ (Bool.not_eq_true _ ▸ hc)
          (ih rest hl)

/-! ### Whitespace-normalization lemmas (C8). -/

theorem collapseWs_id : ∀ l : List Char, allWsSpace l = true →
    noTwoWs l = true → collapseWs l = l
  | [] => fun _ _ => rfl
  | [c] => by
    intro ha _
    simp only [allWsSpace, List.all_cons, List.all_nil, Bool.and_true] at ha
    simp only [collapseWs]
    by_cases hw : isWsC c = true
    · simp only [hw, Bool.not_true, Bool.false_or] at ha
      have : c = ' ' := by simpa using ha
      rw [if_pos hw, this]
    · rw [if_neg hw]
  | c :: d :: rest => by
    intro ha hn
    have ih := collapseWs_id (d :: rest)
    simp only [allWsSpace, List.all_cons, Bool.and_eq_true] at ha
    simp only [noTwoWs, Bool.and_eq_true, Bool.not_eq_true'] at hn
    have hrest : collapseWs (d :: rest) = d :: rest := by
      apply ih
      · simp only [allWsSpace, List.all_cons, Bool.and_eq_true]
        exact ⟨ha.2.1, ha.2.2⟩
      · exact hn.2
    simp only [collapseWs, hn.1, Bool.false_eq_true, if_false]
    rw [hrest]
    by_cases hw : isWsC c = true
    · have : c = ' ' := by
        rcases ha with ⟨h1, _⟩
        rcases Bool.or_eq_true_iff.mp h1 with h2 | h2
        · exact absurd hw (by simpa using h2)
        · simpa using h2
      rw [if_pos hw, this]
    · rw [if_neg hw]

theorem collapseWs_head : ∀ (c : Char) (rest : List Char),
    ∃ T, collapseWs (c :: rest) = (if isWsC c then ' ' else c) :: T := by
  intro c rest
  induction rest generalizing c with
  | nil => exact ⟨[], rfl⟩
  | cons d rest2 ih =>
    by_cases hb : (isWsC c && isWsC d) = true
    · rcases ih d with ⟨T, hT⟩
      have hb2 := hb
      simp only [Bool.and_eq_true] at hb2
      refine ⟨T, ?_⟩
      simp only [collapseWs, hb, if_true]
      rw [hT, hb2.1, hb2.2]
      simp
    · exact ⟨collapseWs (d :: rest2), by simp only [collapseWs, hb,
        Bool.false_eq_true, if_false]⟩

theorem allWsSpace_collapseWs : ∀ l : List Char,
    allWsSpace (collapseWs l) = true
  | [] => rfl
  | [c] => by
    simp only [collapseWs]
    by_cases hw : isWsC c = true
    · rw [if_pos hw]; rfl
    · rw [if_neg hw]
      simp [allWsSpace, hw]
  | c :: d :: rest => by
    have ih := allWsSpace_collapseWs (d :: rest)
    by_cases hb : (isWsC c && isWsC d) = true
    · simp only [collapseWs, hb, if_true]
      exact ih
    · simp only [collapseWs, hb, Bool.false_eq_true, if_false]
      simp only [allWsSpace, List.all_cons, Bool.and_eq_true]
      refine ⟨?_, ih⟩
      by_cases hw : isWsC c = true
      · rw [if_pos hw]; rfl
      · rw [if_neg hw]; simp [hw]

theorem noTwoWs_collapseWs : ∀ l : List Char,
    noTwoWs (collapseWs l) = true
  | [] => rfl
  | [c] => by
    simp only [collapseWs]
    by_cases hw : isWsC c = true
    · rw [if_pos hw]; rfl
    · rw [if_neg hw]; rfl
  | c :: d :: rest => by
    have ih := noTwoWs_collapseWs (d :: rest)
    by_cases hb : (isWsC c && isWsC d) = true
    · simp only [collapseWs, hb, if_true]
      exact ih
    · simp only [collapseWs, hb, Bool.false_eq_true, if_false]
      rcases collapseWs_head d rest with ⟨T, hT⟩
      rw [hT]
      rw [hT] at ih
      simp only [noTwoWs, Bool.and_eq_true, Bool.not_eq_true']
      refine ⟨?_, ih⟩
      by_cases hwc : isWsC c = true
      · have hwd : isWsC d = false := by
          cases hd2 : isWsC d
          · rfl
          · exact absurd (by rw [hwc, hd2]; rfl) hb
        rw [if_pos hwc, if_neg (by simp [hwd]), hwd]
        simp
      · rw [if_neg hwc]
        simp [hwc]

theorem mem_collapseWs : ∀ (l : List Char) (c : Char),
    c ∈ collapseWs l → c ∈ l ∨ c = ' '
  | [], c => fun h => absurd h (List.not_mem_nil c)
  | [d], c => by
    intro h
    simp only [collapseWs] at h
    by_cases hw : isWsC d = true
    · rw [if_pos hw] at h
      exact Or.inr (List.mem_singleton.mp h)
    · rw [if_neg hw] at h
      exact Or.inl h
  | d :: e :: rest, c => by
    intro h
    have ih := mem_collapseWs (e :: rest) c
    by_cases hb : (isWsC d && isWsC e) = true
    · simp only [collapseWs, hb, if_true] at h
      rcases ih h with h1 | h1
      · exact Or.inl (List.mem_cons_of_mem _ h1)
      · exact Or.inr h1
    · simp only [collapseWs, hb, Bool.false_eq_true, if_false] at h
      rcases List.mem_cons.mp h with h1 | h1
      · by_cases hw : isWsC d = true
        · rw [if_pos hw] at h1
          exact Or.inr h1
        · rw [if_neg hw] at h1
          subst h1
          exact Or.inl (List.mem_cons_self _ _)
      · rcases ih h1 with h2 | h2
        · exact Or.inl (List.mem_cons_of_mem _ h2)
        · exact Or.inr h2

theorem tagFree_collapseWs : ∀ l : List Char, tagFree l = true →
    tagFree (collapseWs l) = true
  | [] => fun _ => rfl
  | [d] => by
    intro h
    simp only [collapseWs]
    by_cases hw : isWsC d = true
    · rw [if_pos hw]; rfl
    · rw [if_neg hw]
      cases hd : (d == '<')
      · exact tagFree_cons_of_ne d [] hd rfl
      · exact h
  | d :: e :: rest => by
    intro h
    have htail : tagFree (e :: rest) = true := tagFree_tail _ _ h
    have ih := tagFree_collapseWs (e :: rest) htail
    by_cases hb : (isWsC d && isWsC e) = true
    · simp only [collapseWs, hb, if_true]
      exact ih
    · simp only [collapseWs, hb, Bool.false_eq_true, if_false]
      by_cases hw : isWsC d = true
      · rw [if_pos hw]
        exact tagFree_cons_of_ne _ _ (by decide) ih
      · rw [if_neg hw]
        by_cases hd : (d == '<') = true
        · have hdq : d = '<' := by simpa using hd
          subst hdq
          rw [tagFree_lt_cons_eq, Bool.and_eq_true] at h
          rcases h with ⟨hcond, _⟩
          rcases Bool.or_eq_true_iff.mp hcond with h1 | h1
          · have heq : e = '>' := by simpa using h1
            subst heq
            rcases collapseWs_head '>' rest with ⟨T, hT⟩
            rw [hT]
            rw [hT] at ih
            have : (if isWsC '>' = true then ' ' else '>') = '>' := by
              decide
            rw [this] at ih ⊢
            rw [tagFree_lt_cons_eq]
            simp only [Bool.and_eq_true]
            exact ⟨by simp, ih⟩
          · have hnomem : '>' ∉ (e :: rest) := by
              intro hmem
              have := List.elem_iff.mpr hmem
              rw [show (e :: rest).elem '>' = (e :: rest).contains '>'
                from rfl] at this
              rw [(by simpa using h1 : (e :: rest).contains '>' = false)]
                at this
              exact Bool.noConfusion this
            apply tagFree_cons_lt_of_not_mem _ ?_ ih
            intro hmem
            rcases mem_collapseWs (e :: rest) '>' hmem with h2 | h2
            · exact hnomem h2
            · exact absurd h2 (by decide)
        · exact tagFree_cons_of_ne _ _ (by
            cases hdd : (d == '<')
            · rfl
            · exact absurd hdd hd) ih

theorem noTwoWs_tail (c : Char) (l : List Char) (h : noTwoWs (c :: l) = true) :
    noTwoWs l = true := by
  cases l with
  | nil => rfl
  | cons d rest =>
    simp only [noTwoWs, Bool.and_eq_true] at h
    exact h.2

theorem tagFree_dropWhile (p : Char → Bool) : ∀ l : List Char,
    tagFree l = true → tagFree (l.dropWhile p) = true := by
  intro l h
  induction l with
  | nil => exact h
  | cons c rest ih =>
    rw [List.dropWhile_cons]
    by_cases hp : p c = true
    · rw [if_pos hp]
      exact ih (tagFree_tail _ _ h)
    · rw [if_neg hp]
      exact h

theorem noTwoWs_dropWhile (p : Char → Bool) : ∀ l : List Char,
    noTwoWs l = true → noTwoWs (l.dropWhile p) = true := by
  intro l h
  induction l with
  | nil => exact h
  | cons c rest ih =>
    rw [List.dropWhile_cons]
    by_cases hp : p c = true
    · rw [if_pos hp]
      exact ih (noTwoWs_tail _ _ h)
    · rw [if_neg hp]
      exact h

theorem mem_dropWhile (p : Char → Bool) (l : List Char) (c : Char)
    (h : c ∈ l.dropWhile p) : c ∈ l :=
  (List.dropWhile_sublist p).mem h

theorem headNotWs_dropWhile (l : List Char) :
    headNotWs (l.dropWhile isWsC) = true := by
  induction l with
  | nil => rfl
  | cons c rest ih =>
    rw [List.dropWhile_cons]
    by_cases hp : isWsC c = true
    · rw [if_pos hp]
      exact ih
    · rw [if_neg hp]
      simpa [headNotWs] using hp

theorem trimRight_take : ∀ l : List Char, ∃ n, trimRight l = l.take n := by
  intro l
  induction l with
  | nil => exact ⟨0, rfl⟩
  | cons c rest ih =>
    rcases ih with ⟨m, hm⟩
    cases htr : trimRight rest with
    | nil =>
      by_cases hw : isWsC c = true
      · exact ⟨0, by simp only [trimRight, htr, hw, if_true, List.take]⟩
      · exact ⟨1, by
          simp only [trimRight, htr, hw, Bool.false_eq_true, if_false]
          rfl⟩
    | cons d rest2 =>
      refine ⟨m + 1, ?_⟩
      have : trimRight (c :: rest) = c :: trimRight rest := by
        simp only [trimRight, htr]
      rw [this, hm]
      rfl

theorem mem_trimRight (l : List Char) (c : Char) (h : c ∈ trimRight l) :
    c ∈ l := by
  rcases trimRight_take l with ⟨n, hn⟩
  rw [hn] at h
  exact (List.take_sublist n l).mem h

theorem tagFree_take : ∀ (l : List Char) (n : Nat),
    tagFree l = true → tagFree (l.take n) = true := by
  intro l
  induction l with
  | nil => intro n h; rw [List.take_nil]; exact h
  | cons c rest ih =>
    intro n h
    cases n with
    | zero => rfl
    | succ m =>
      rw [List.take_succ_cons]
      have hT := ih m (tagFree_tail _ _ h)
      by_cases hc : (c == '<') = true
      · have hcq : c = '<' := by simpa using hc
        subst hcq
        cases rest with
        | nil =>
          show tagFree ('<' :: List.take m []) = true
          rw [List.take_nil]
          rfl
        | cons d r2 =>
          rw [tagFree_lt_cons_eq, Bool.and_eq_true] at h
          rcases h with ⟨hcond, htail⟩
          rcases Bool.or_eq_true_iff.mp hcond with h1 | h1
          · have hdq : d = '>' := by simpa using h1
            subst hdq
            cases m with
            | zero => rfl
            | succ k =>
              rw [List.take_succ_cons]
              rw [tagFree_lt_cons_eq]
              have hih := ih (k + 1) htail
              rw [List.take_succ_cons] at hih
              rw [hih]
              simp
          · have hnomem : '>' ∉ (d :: r2) := by
              intro hmem
              have h2 := List.elem_iff.mpr hmem
              rw [show (d :: r2).elem '>' = (d :: r2).contains '>'
                from rfl, (by simpa using h1 :
                  (d :: r2).contains '>' = false)] at h2
              exact Bool.noConfusion h2
            exact tagFree_cons_lt_of_not_mem _
              (fun hmem => hnomem ((List.take_sublist m _).mem hmem)) hT
      · exact tagFree_cons_of_ne _ _ (by
          cases hdd : (c == '<')
          · rfl
          · exact absurd hdd hc) hT

theorem noTwoWs_take : ∀ (l : List Char) (n : Nat),
    noTwoWs l = true → noTwoWs (l.take n) = true
  | [], n => by intro h; rw [List.take_nil]; exact h
  | [c], n => by
    intro h
    cases n with
    | zero => rfl
    | succ m =>
      rw [List.take_succ_cons, List.take_nil]
      exact h
  | c :: d :: rest, n => by
    intro h
    cases n with
    | zero => rfl
    | succ m =>
      rw [List.take_succ_cons]
      cases m with
      | zero => rfl
      | succ k =>
        rw [List.take_succ_cons]
        simp only [noTwoWs, Bool.and_eq_true] at h ⊢
        refine ⟨h.1, ?_⟩
        have := noTwoWs_take (d :: rest) (k + 1) h.2
        rw [List.take_succ_cons] at this
        exact this

theorem allWsSpace_of_mem (l : List Char)
    (h : ∀ c ∈ l, isWsC c = false ∨ c = ' ') : allWsSpace l = true := by
  rw [allWsSpace, List.all_eq_true]
  intro c hc
  rcases h c hc with h1 | h1
  · simp [h1]
  · simp [h1]

theorem allWsSpace_mem (l : List Char) (hl : allWsSpace l = true) (c : Char)
    (hc : c ∈ l) : isWsC c = false ∨ c = ' ' := by
  rw [allWsSpace, List.all_eq_true] at hl
  have := hl c hc
  by_cases hw : isWsC c = true
  · right
    simpa [hw] using this
  · left
    cases hww : isWsC c
    · rfl
    · exact absurd hww hw

theorem headNotWs_take (l : List Char) (n : Nat)
    (h : headNotWs l = true) : headNotWs (l.take n) = true := by
  cases l with
  | nil => rw [List.take_nil]; exact h
  | cons c rest =>
    cases n with
    | zero => rfl
    | succ m =>
      rw [List.take_succ_cons]
      exact h

theorem headNotWs_trimRight (l : List Char) (h : headNotWs l = true) :
    headNotWs (trimRight l) = true := by
  rcases trimRight_take l with ⟨n, hn⟩
  rw [hn]
  exact headNotWs_take l n h

theorem lastNotWs_trimRight : ∀ l : List Char,
    lastNotWs (trimRight l) = true
  | [] => rfl
  | c :: rest => by
    have ih := lastNotWs_trimRight rest
    cases htr : trimRight rest with
    | nil =>
      by_cases hw : isWsC c = true
      · simp only [trimRight, htr, hw, if_true]
        rfl
      · simp only [trimRight, htr, hw, Bool.false_eq_true, if_false]
        simpa [lastNotWs] using hw
    | cons d rest2 =>
      have hred : trimRight (c :: rest) = c :: d :: rest2 := by
        simp only [trimRight, htr]
      rw [hred]
      rw [htr] at ih
      exact ih

theorem trimRight_of_lastNotWs : ∀ l : List Char,
    lastNotWs l = true → trimRight l = l
  | [] => fun _ => rfl
  | [c] => by
    intro h
    have hw : isWsC c = false := by simpa [lastNotWs] using h
    simp only [trimRight]
    rw [if_neg (by simp [hw])]
  | c :: d :: rest => by
    intro h
    have ih := trimRight_of_lastNotWs (d :: rest) (by
      simpa [lastNotWs] using h)
    have step : trimRight (c :: d :: rest) =
        match trimRight (d :: rest) with
        | [] => if isWsC c = true then [] else [c]
        | r => c :: r := rfl
    rw [step, ih]

theorem dropWhile_of_headNotWs (l : List Char) (h : headNotWs l = true) :
    l.dropWhile isWsC = l := by
  cases l with
  | nil => rfl
  | cons c rest =>
    simp only [headNotWs, Bool.not_eq_true'] at h
    rw [List.dropWhile_cons, if_neg (by simp [h])]

theorem trimRight_ne_nil (c : Char) (rest : List Char)
    (h : isWsC c = false) : trimRight (c :: rest) ≠ [] := by
  cases htr : trimRight rest with
  | nil =>
    simp only [trimRight, htr, h, Bool.false_eq_true, if_false]
    exact fun hh => List.noConfusion hh
  | cons d rest2 =>
    simp only [trimRight, htr]
    exact fun hh => List.noConfusion hh

theorem trimRight_length (l : List Char) : (trimRight l).length ≤ l.length := by
  rcases trimRight_take l with ⟨n, hn⟩
  rw [hn]
  exact (List.take_sublist n l).length_le

theorem allWsSpace_sub (l r : List Char) (hl : allWsSpace l = true)
    (hsub : ∀ c ∈ r, c ∈ l) : allWsSpace r = true := by
  apply allWsSpace_of_mem
  intro c hc
  exact allWsSpace_mem l hl c (hsub c hc)

theorem wsNormOk_normWsChars (l : List Char) :
    wsNormOk (normWsChars l) = true := by
  have h1 : allWsSpace (collapseWs l) = true := allWsSpace_collapseWs l
  have h2 : noTwoWs (collapseWs l) = true := noTwoWs_collapseWs l
  have h3 : allWsSpace ((collapseWs l).dropWhile isWsC) = true :=
    allWsSpace_sub _ _ h1 (fun c hc => mem_dropWhile _ _ _ hc)
  have h4 : noTwoWs ((collapseWs l).dropWhile isWsC) = true :=
    noTwoWs_dropWhile _ _ h2
  have h5 : headNotWs ((collapseWs l).dropWhile isWsC) = true :=
    headNotWs_dropWhile _
  rw [wsNormOk]
  simp only [Bool.and_eq_true]
  refine ⟨⟨⟨?_, ?_⟩, ?_⟩, ?_⟩
  · exact allWsSpace_sub _ _ h3 (fun c hc => mem_trimRight _ _ hc)
  · rcases trimRight_take ((collapseWs l).dropWhile isWsC) with ⟨n, hn⟩
    rw [normWsChars, hn]
    exact noTwoWs_take _ n h4
  · exact headNotWs_trimRight _ h5
  · exact lastNotWs_trimRight _

theorem normWsChars_id (l : List Char) (h : wsNormOk l = true) :
    normWsChars l = l := by
  rw [wsNormOk] at h
  simp only [Bool.and_eq_true] at h
  rw [normWsChars, collapseWs_id l h.1.1.1 h.1.1.2,
    dropWhile_of_headNotWs l h.1.2, trimRight_of_lastNotWs l h.2]

theorem mem_normWsChars (l : List Char) (c : Char)
    (h : c ∈ normWsChars l) : c ∈ l ∨ c = ' ' := by
  rw [normWsChars] at h
  have h1 := mem_dropWhile isWsC _ c (mem_trimRight _ c h)
  exact mem_collapseWs l c h1

theorem tagFree_normWsChars (l : List Char) (h : tagFree l = true) :
    tagFree (normWsChars l) = true := by
  rw [normWsChars]
  rcases trimRight_take ((collapseWs l).dropWhile isWsC) with ⟨n, hn⟩
  rw [hn]
  exact tagFree_take _ n (tagFree_dropWhile _ _ (tagFree_collapseWs l h))

theorem wsNormOk_trim_take (l : List Char) (L : Nat)
    (h : wsNormOk l = true) : wsNormOk (trimRight (l.take L)) = true := by
  rw [wsNormOk] at h
  simp only [Bool.and_eq_true] at h
  rw [wsNormOk]
  simp only [Bool.and_eq_true]
  refine ⟨⟨⟨?_, ?_⟩, ?_⟩, ?_⟩
  · exact allWsSpace_sub _ _ h.1.1.1
      (fun c hc => (List.take_sublist L l).mem (mem_trimRight _ _ hc))
  · rcases trimRight_take (l.take L) with ⟨n, hn⟩
    rw [hn]
    exact noTwoWs_take _ n (noTwoWs_take l L h.1.1.2)
  · exact headNotWs_trimRight _ (headNotWs_take l L h.1.2)
  · exact lastNotWs_trimRight _

theorem removeEmoji_id (l : List Char) (h : noEmojiAll l = true) :
    removeEmoji l = l := by
  rw [removeEmoji, List.filter_eq_self]
  rw [noEmojiAll, List.all_eq_true] at h
  exact h

theorem noEmojiAll_removeEmoji (l : List Char) :
    noEmojiAll (removeEmoji l) = true := by
  rw [noEmojiAll, List.all_eq_true]
  intro c hc
  exact (List.mem_filter.mp hc).2

theorem noEmojiAll_sub (l r : List Char) (hl : noEmojiAll l = true)
    (hsub : ∀ c ∈ r, c ∈ l) : noEmojiAll r = true := by
  rw [noEmojiAll, List.all_eq_true] at hl ⊢
  exact fun c hc => hl c (hsub c hc)

theorem mem_removeEmoji (l : List Char) (c : Char)
    (h : c ∈ removeEmoji l) : c ∈ l :=
  (List.mem_filter.mp h).1

theorem tagFree_removeEmoji : ∀ l : List Char, tagFree l = true →
    tagFree (removeEmoji l) = true := by
  intro l
  induction l with
  | nil => intro h; exact h
  | cons c rest ih =>
    intro h
    have htail := tagFree_tail _ _ h
    rw [removeEmoji, List.filter_cons]
    by_cases hk : (!isEmojiC c) = true
    · rw [if_pos hk]
      by_cases hc : (c == '<') = true
      · have hcq : c = '<' := by simpa using hc
        subst hcq
        cases rest with
        | nil => rfl
        | cons d r2 =>
          rw [tagFree_lt_cons_eq, Bool.and_eq_true] at h
          rcases h with ⟨hcond, _⟩
          rcases Bool.or_eq_true_iff.mp hcond with h1 | h1
          · have hdq : d = '>' := by simpa using h1
            subst hdq
            have hred : removeEmoji ('>' :: r2) = '>' :: removeEmoji r2 := by
              rw [removeEmoji, List.filter_cons, if_pos (by decide)]
              rfl
            show tagFree ('<' :: removeEmoji ('>' :: r2)) = true
            rw [hred, tagFree_lt_cons_eq]
            have hx := ih htail
            rw [hred] at hx
            rw [hx]
            simp
          · have hnomem : '>' ∉ (d :: r2) := by
              intro hmem
              have h2 := List.elem_iff.mpr hmem
              rw [show (d :: r2).elem '>' = (d :: r2).contains '>'
                from rfl, (by simpa using h1 :
                  (d :: r2).contains '>' = false)] at h2
              exact Bool.noConfusion h2
            exact tagFree_cons_lt_of_not_mem _
              (fun hmem => hnomem (mem_removeEmoji _ _ hmem)) (ih htail)
      · exact tagFree_cons_of_ne _ _ (by
          cases hdd : (c == '<')
          · rfl
          · exact absurd hdd hc) (ih htail)
    · rw [if_neg hk]
      exact ih htail

theorem isEmpty_false_of_ne_nil (l : List Char) (h : l ≠ []) :
    l.isEmpty = false := by
  cases l with
  | nil => exact absurd rfl h
  | cons c rest => rfl

/-- The sanitation pipeline is the identity on text that is
ampersand-free, tag-free, emoji-free, whitespace-normalized, non-empty
and within the length limit. -/
theorem cleanText_of_fixed (u : List Char) (L : Nat)
    (h1 : noAmp u = true) (h2 : tagFree u = true)
    (h3 : noEmojiAll u = true) (h4 : wsNormOk u = true)
    (h5 : u ≠ []) (h6 : u.length ≤ L) :
    cleanText (some ⟨u⟩) L = some ⟨u⟩ := by
  have hcc : cleanChars u = u := by
    rw [cleanChars]
    rw [show pyUnescape u = u from unescapeFuel_of_noAmp u.length u h1]
    rw [show pyStripHtml u = u from stripHtmlFuel_of_tagFree u.length u h2]
    rw [removeEmoji_id u h3, normWsChars_id u h4]
  show (if (cleanChars u).isEmpty then (none : Option String)
    else if L < (cleanChars u).length then
      some (⟨trimRight ((cleanChars u).take L)⟩ : String)
    else some (⟨cleanChars u⟩ : String)) = some (⟨u⟩ : String)
  rw [hcc, isEmpty_false_of_ne_nil u h5]
  rw [if_neg (by simp), if_neg (Nat.not_lt.mpr h6)]

/-- Properties of every `clean_text` output: ampersand-freedom is the
only fixed-point ingredient not guaranteed by the pipeline itself. -/
theorem cleanText_output (s t : String) (L : Nat) (hL : 1 ≤ L)
    (h : cleanText (some s) L = some t) :
    tagFree t.data = true ∧ noEmojiAll t.data = true ∧
    wsNormOk t.data = true ∧ t.data ≠ [] ∧ t.data.length ≤ L := by
  have hred : cleanText (some s) L =
      (if (cleanChars s.data).isEmpty then none
       else if L < (cleanChars s.data).length then
         some (⟨trimRight ((cleanChars s.data).take L)⟩ : String)
       else some (⟨cleanChars s.data⟩ : String)) := rfl
  rw [hred] at h
  have Ptag : tagFree (cleanChars s.data) = true := by
    rw [cleanChars]
    apply tagFree_normWsChars
    apply tagFree_removeEmoji
    exact tagFree_stripHtmlFuel _ _ (le_refl _)
  have Pemoji : noEmojiAll (cleanChars s.data) = true := by
    rw [cleanChars, noEmojiAll, List.all_eq_true]
    intro c hc
    rcases mem_normWsChars _ c hc with h1 | h1
    · exact (List.mem_filter.mp h1).2
    · subst h1
      decide
  have Pws : wsNormOk (cleanChars s.data) = true := by
    rw [cleanChars]
    exact wsNormOk_normWsChars _
  by_cases he : (cleanChars s.data).isEmpty = true
  · rw [if_pos he] at h
    exact Option.noConfusion h
  · rw [if_neg he] at h
    have hne : cleanChars s.data ≠ [] := by
      intro hn
      rw [hn] at he
      exact he rfl
    by_cases hlt : L < (cleanChars s.data).length
    · rw [if_pos hlt] at h
      have heq := Option.some.inj h
      subst heq
      show tagFree (trimRight ((cleanChars s.data).take L)) = true ∧ _
      have Xtag : tagFree (trimRight ((cleanChars s.data).take L)) = true := by
        rcases trimRight_take ((cleanChars s.data).take L) with ⟨n, hn⟩
        rw [hn]
        exact tagFree_take _ n (tagFree_take _ L Ptag)
      have Xemoji : noEmojiAll (trimRight ((cleanChars s.data).take L))
          = true := by
        apply noEmojiAll_sub _ _ Pemoji
        intro c hc
        exact (List.take_sublist L _).mem (mem_trimRight _ _ hc)
      have Xws : wsNormOk (trimRight ((cleanChars s.data).take L)) = true :=
        wsNormOk_trim_take _ L Pws
      have Xne : trimRight ((cleanChars s.data).take L) ≠ [] := by
        cases hc0 : cleanChars s.data with
        | nil => exact absurd hc0 hne
        | cons h0 rest =>
          obtain ⟨L2, rfl⟩ : ∃ L2, L = L2 + 1 := ⟨L - 1, by omega⟩
          rw [List.take_succ_cons]
          have hh0 : isWsC h0 = false := by
            rw [wsNormOk] at Pws
            simp only [Bool.and_eq_true] at Pws
            have := Pws.1.2
            rw [hc0] at this
            simpa [headNotWs] using this
          exact trimRight_ne_nil h0 _ hh0
      have Xlen : (trimRight ((cleanChars s.data).take L)).length ≤ L :=
        le_trans (trimRight_length _) (List.length_take_le _ _)
      exact ⟨Xtag, Xemoji, Xws, Xne, Xlen⟩
    · rw [if_neg hlt] at h
      have heq := Option.some.inj h
      subst heq
      exact ⟨Ptag, Pemoji, Pws, hne, Nat.not_lt.mp hlt⟩

/-- The fixed-point theorem: a `clean_text` output containing no
ampersand is itself a fixed point of `clean_text` at the same limit. -/
theorem cleanText_fixpoint (s t : String) (L : Nat) (hL : 1 ≤ L)
    (h : cleanText (some s) L = some t) (ha : noAmp t.data = true) :
    cleanText (some t) L = some t := by
  obtain ⟨P1, P2, P3, P4, P5⟩ := cleanText_output s t L hL h
  exact cleanText_of_fixed t.data L ha P1 P2 P3 P4 P5

/-! ### Date canonicity and idempotence lemmas (C8). -/

theorem parseYmd_shape (l : List Char) (ys : List Char) (m : Nat)
    (h : parseYmd l = some (ys, m)) :
    (∀ c ∈ ys, isDigitC c = true) ∧ ys.length = 4 := by
  rw [parseYmd] at h
  split at h
  · split at h
    · split at h
      · have heq := Option.some.inj h
        rw [Prod.mk.injEq] at heq
        obtain ⟨h1, _⟩ := heq
        subst h1
        constructor
        · intro c hc
          exact List.mem_takeWhile_imp hc
        · simpa using (by assumption : ((l.takeWhile isDigitC).length == 4)
            = true)
      · exact Option.noConfusion h
    · exact Option.noConfusion h
  · exact Option.noConfusion h

theorem parseMdy_shape (l : List Char) (ys : List Char) (m : Nat)
    (h : parseMdy l = some (ys, m)) :
    (∀ c ∈ ys, isDigitC c = true) ∧ ys.length = 4 := by
  rw [parseMdy] at h
  split at h
  · split at h
    · split at h
      · rename_i hguard
        have heq := Option.some.inj h
        rw [Prod.mk.injEq] at heq
        obtain ⟨h1, _⟩ := heq
        subst h1
        simp only [Bool.and_eq_true] at hguard
        obtain ⟨⟨hsep, hall⟩, hlen⟩ := hguard
        constructor
        · intro c hc
          exact (List.all_eq_true.mp hall) c hc
        · simpa using hlen
      · exact Option.noConfusion h
    · exact Option.noConfusion h
  · exact Option.noConfusion h

theorem monthLookup_bounds (k : String) (m : Nat)
    (h : monthLookup k = some m) : 1 ≤ m ∧ m ≤ 12 := by
  rw [monthLookup] at h
  cases hf : MONTH_ALIASES.find? (fun p => p.1 == k) with
  | none => rw [hf] at h; exact Option.noConfusion h
  | some p =>
    rw [hf] at h
    have hmem := List.mem_of_find?_eq_some hf
    have hall : MONTH_ALIASES.all (fun p => decide (1 ≤ p.2) &&
        decide (p.2 ≤ 12)) = true := by decide
    have := (List.all_eq_true.mp hall) p hmem
    simp only [Bool.and_eq_true, decide_eq_true_eq] at this
    have hm : p.2 = m := by simpa using h
    omega

theorem parseNameYear_shape (l : List Char) (ys : List Char) (m : Nat)
    (h : parseNameYear l = some (ys, m)) :
    (∀ c ∈ ys, isDigitC c = true) ∧ ys.length = 4 ∧ 1 ≤ m ∧ m ≤ 12 := by
  simp only [parseNameYear] at h
  split at h
  · rename_i h5
    split at h
    · rename_i hdig
      split at h
      · split at h
        · rename_i hlook
          have heq := Option.some.inj h
          rw [Prod.mk.injEq] at heq
          obtain ⟨h1, h2⟩ := heq
          subst h1
          subst h2
          refine ⟨fun c hc => (List.all_eq_true.mp hdig) c hc, ?_, ?_⟩
          · rw [List.length_drop]
            simp only [decide_eq_true_eq] at h5
            omega
          · rename_i mm _
            exact monthLookup_bounds _ _ hlook
        · exact Option.noConfusion h
      · exact Option.noConfusion h
    · exact Option.noConfusion h
  · exact Option.noConfusion h

theorem parseYearOnly_shape (l : List Char) (ys : List Char)
    (h : parseYearOnly l = some ys) :
    (∀ c ∈ ys, isDigitC c = true) ∧ ys.length = 4 := by
  rw [parseYearOnly] at h
  split at h
  · rename_i hguard
    have heq := Option.some.inj h
    subst heq
    simp only [Bool.and_eq_true] at hguard
    exact ⟨fun c hc => (List.all_eq_true.mp hguard.1) c hc,
      by simpa using hguard.2⟩
  · exact Option.noConfusion h

theorem tryNumeric_some (p : Option (List Char × Nat)) (d : String)
    (h : tryNumeric p = some d) :
    ∃ ys m, p = some (ys, m) ∧ 1 ≤ m ∧ m ≤ 12 ∧ d = ymString ys m := by
  cases p with
  | none => exact Option.noConfusion h
  | some q =>
    rw [tryNumeric] at h
    split at h
    · rename_i hv
      simp only [Bool.and_eq_true, decide_eq_true_eq] at hv
      exact ⟨q.1, q.2, rfl, hv.1, hv.2, (Option.some.inj h).symm⟩
    · exact Option.noConfusion h

/-- Every successful `normalize_date` result is the sentinel or a
canonical `YYYY-MM` token built from four digit characters and a month
between 1 and 12. -/
theorem normalizeDate_ok_shape (v : String) (f : Bool) (d : String)
    (h : normalizeDate v f = .ok d) :
    (d = "Atual" ∧ f = true) ∨ ∃ (ys : List Char) (m : Nat),
      (∀ c ∈ ys, isDigitC c = true) ∧ ys.length = 4 ∧
      1 ≤ m ∧ m ≤ 12 ∧ d = ymString ys m := by
  rw [normalizeDate] at h
  split at h
  · exact Except.noConfusion h
  · rename_i raw hclean
    split at h
    · rename_i hsent
      simp only [Bool.and_eq_true] at hsent
      exact Or.inl ⟨(Except.ok.inj h).symm, hsent.1⟩
    · split at h
      · rename_i d2 hd2
        rcases tryNumeric_some _ _ hd2 with ⟨ys, m, hp, hm1, hm2, hdd⟩
        rcases parseYmd_shape _ _ _ hp with ⟨hdig, hlen⟩
        exact Or.inr ⟨ys, m, hdig, hlen, hm1, hm2,
          (Except.ok.inj h).symm.trans hdd⟩
      · split at h
        · rename_i d2 hd2
          rcases tryNumeric_some _ _ hd2 with ⟨ys, m, hp, hm1, hm2, hdd⟩
          rcases parseMdy_shape _ _ _ hp with ⟨hdig, hlen⟩
          exact Or.inr ⟨ys, m, hdig, hlen, hm1, hm2,
            (Except.ok.inj h).symm.trans hdd⟩
        · split at h
          · rename_i ys m hp
            rcases parseNameYear_shape _ _ _ hp with ⟨hdig, hlen, hm1, hm2⟩
            exact Or.inr ⟨ys, m, hdig, hlen, hm1, hm2, (Except.ok.inj h).symm⟩
          · split at h
            · rename_i ys hp
              rcases parseYearOnly_shape _ _ hp with ⟨hdig, hlen⟩
              exact Or.inr ⟨ys, 1, hdig, hlen, le_refl 1, by omega,
                (Except.ok.inj h).symm⟩
            · exact Except.noConfusion h

theorem isDigitC_plainAscii (c : Char) (h : isDigitC c = true) :
    plainAscii c = true := by
  have hb : 48 ≤ c.toNat ∧ c.toNat ≤ 57 := by
    simpa [isDigitC] using h
  have hne : ∀ d : Char, d.toNat ≠ c.toNat → (c == d) = false := by
    intro d hd
    rw [beq_eq_false_iff_ne]
    intro hh
    exact hd (by rw [hh])
  rw [plainAscii, isWsC, isEmojiC]
  rw [hne ' ' (by rw [show (' ' : Char).toNat = 32 from rfl]; omega),
    hne '\t' (by rw [show ('\t' : Char).toNat = 9 from rfl]; omega),
    hne '\n' (by rw [show ('\n' : Char).toNat = 10 from rfl]; omega),
    hne '\r' (by rw [show ('\r' : Char).toNat = 13 from rfl]; omega),
    hne (Char.ofNat 11) (by
      rw [charOfNat_toNat 11 (Or.inl (by omega))]; omega),
    hne (Char.ofNat 12) (by
      rw [charOfNat_toNat 12 (Or.inl (by omega))]; omega)]
  have h1 : (c != '&') = true := by
    rw [bne, hne '&' (by rw [show ('&' : Char).toNat = 38 from rfl]; omega)]
    rfl
  have h2 : (c != '<') = true := by
    rw [bne, hne '<' (by rw [show ('<' : Char).toNat = 60 from rfl]; omega)]
    rfl
  rw [h1, h2]
  have e1 : decide (0x1F600 ≤ c.toNat) = false := decide_eq_false (by omega)
  have e2 : decide (0x1F300 ≤ c.toNat) = false := decide_eq_false (by omega)
  have e3 : decide (0x1F680 ≤ c.toNat) = false := decide_eq_false (by omega)
  have e4 : decide (0x1F1E0 ≤ c.toNat) = false := decide_eq_false (by omega)
  have e5 : decide (0x2700 ≤ c.toNat) = false := decide_eq_false (by omega)
  have e6 : decide (0x1F900 ≤ c.toNat) = false := decide_eq_false (by omega)
  have e7 : decide (0x1FA70 ≤ c.toNat) = false := decide_eq_false (by omega)
  have e8 : decide (0x2600 ≤ c.toNat) = false := decide_eq_false (by omega)
  have e9 : decide (0x24C2 ≤ c.toNat) = false := decide_eq_false (by omega)
  simp [e1, e2, e3, e4, e5, e6, e7, e8, e9]

theorem noTwoWs_of_no_ws : ∀ l : List Char,
    (∀ c ∈ l, isWsC c = false) → noTwoWs l = true
  | [] => fun _ => rfl
  | [_] => fun _ => rfl
  | c :: d :: rest => by
    intro h
    have ih := noTwoWs_of_no_ws (d :: rest)
      (fun e he => h e (List.mem_cons_of_mem _ he))
    simp only [noTwoWs, Bool.and_eq_true]
    refine ⟨?_, ih⟩
    rw [h c (List.mem_cons_self _ _)]
    rfl

theorem lastNotWs_of_no_ws : ∀ l : List Char,
    (∀ c ∈ l, isWsC c = false) → lastNotWs l = true
  | [] => fun _ => rfl
  | [c] => by
    intro h
    simpa [lastNotWs] using h c (List.mem_cons_self _ _)
  | c :: d :: rest => by
    intro h
    have ih := lastNotWs_of_no_ws (d :: rest)
      (fun e he => h e (List.mem_cons_of_mem _ he))
    simpa [lastNotWs] using ih

theorem tagFree_of_no_lt : ∀ l : List Char,
    (∀ c ∈ l, (c == '<') = false) → tagFree l = true
  | [] => fun _ => rfl
  | c :: rest => by
    intro h
    exact tagFree_cons_of_ne c rest (h c (List.mem_cons_self _ _))
      (tagFree_of_no_lt rest (fun e he => h e (List.mem_cons_of_mem _ he)))

/-- `clean_text` is the identity on non-empty, in-limit strings of
plain characters. -/
theorem cleanText_plain (u : List Char) (L : Nat)
    (hp : ∀ c ∈ u, plainAscii c = true) (h5 : u ≠ []) (h6 : u.length ≤ L) :
    cleanText (some ⟨u⟩) L = some ⟨u⟩ := by
  have hplain : ∀ c ∈ u, isWsC c = false ∧ isEmojiC c = false ∧
      (c == '&') = false ∧ (c == '<') = false := by
    intro c hc
    have := hp c hc
    rw [plainAscii] at this
    simp only [Bool.and_eq_true, Bool.not_eq_true', bne] at this
    exact ⟨this.1.1.1, this.1.1.2, by
      have := this.1.2
      cases hb : (c == '&')
      · rfl
      · rw [hb] at this
        exact Bool.noConfusion this, by
      have := this.2
      cases hb : (c == '<')
      · rfl
      · rw [hb] at this
        exact Bool.noConfusion this⟩
  apply cleanText_of_fixed u L
  · rw [noAmp, decide_eq_true_eq]
    intro hmem
    have := (hplain '&' hmem).2.2.1
    simp at this
  · apply tagFree_of_no_lt
    exact fun c hc => (hplain c hc).2.2.2
  · rw [noEmojiAll, List.all_eq_true]
    intro c hc
    simp [(hplain c hc).2.1]
  · rw [wsNormOk]
    simp only [Bool.and_eq_true]
    refine ⟨⟨⟨?_, ?_⟩, ?_⟩, ?_⟩
    · exact allWsSpace_of_mem u (fun c hc => Or.inl (hplain c hc).1)
    · exact noTwoWs_of_no_ws u (fun c hc => (hplain c hc).1)
    · cases u with
      | nil => rfl
      | cons c rest =>
        simpa [headNotWs] using (hplain c (List.mem_cons_self _ _)).1
    · exact lastNotWs_of_no_ws u (fun c hc => (hplain c hc).1)
  · exact h5
  · exact h6

theorem takeWhile_all_append (p : Char → Bool) :
    ∀ (l : List Char) (d : Char) (r : List Char),
    (∀ c ∈ l, p c = true) → p d = false →
    (l ++ d :: r).takeWhile p = l ∧ (l ++ d :: r).dropWhile p = d :: r := by
  intro l
  induction l with
  | nil =>
    intro d r _ hd
    constructor
    · rw [List.nil_append, List.takeWhile_cons, if_neg (by simp [hd])]
    · rw [List.nil_append, List.dropWhile_cons, if_neg (by simp [hd])]
  | cons c rest ih =>
    intro d r hl hd
    have hc := hl c (List.mem_cons_self _ _)
    have := ih d r (fun e he => hl e (List.mem_cons_of_mem _ he)) hd
    constructor
    · rw [List.cons_append, List.takeWhile_cons, if_pos (by simp [hc]),
        this.1]
    · rw [List.cons_append, List.dropWhile_cons, if_pos (by simp [hc]),
        this.2]

theorem monthChar1_digit (m : Nat) (hm : m ≤ 12) :
    isDigitC (Char.ofNat (48 + m / 10)) = true := by
  rw [isDigitC, charOfNat_toNat _ (Or.inl (by omega))]
  simp only [Bool.and_eq_true, decide_eq_true_eq]
  omega

theorem monthChar2_digit (m : Nat) :
    isDigitC (Char.ofNat (48 + m % 10)) = true := by
  have : m % 10 < 10 := Nat.mod_lt _ (by omega)
  rw [isDigitC, charOfNat_toNat _ (Or.inl (by omega))]
  simp only [Bool.and_eq_true, decide_eq_true_eq]
  omega

theorem twoDigitVal_month (m : Nat) (hm : m ≤ 12) :
    twoDigitVal [Char.ofNat (48 + m / 10), Char.ofNat (48 + m % 10)] = m := by
  have h1 : m % 10 < 10 := Nat.mod_lt _ (by omega)
  rw [twoDigitVal, digitVal, digitVal,
    charOfNat_toNat _ (Or.inl (by omega)), charOfNat_toNat _ (Or.inl (by
      omega))]
  omega

theorem toLowerC_id_of_lt65 (c : Char) (h : c.toNat < 65) :
    toLowerC c = c := by
  rw [toLowerC]
  rw [if_neg (by
    simp only [Bool.and_eq_true, decide_eq_true_eq]
    omega)]
  rw [if_neg (by
    intro hh
    have hq : c = 'Ç' := by simpa using hh
    rw [hq] at h
    exact absurd h (by decide))]

theorem map_toLowerC_id (l : List Char) (h : ∀ c ∈ l, c.toNat < 65) :
    l.map toLowerC = l := by
  induction l with
  | nil => rfl
  | cons c rest ih =>
    rw [List.map_cons, toLowerC_id_of_lt65 c (h c (List.mem_cons_self _ _)),
      ih (fun e he => h e (List.mem_cons_of_mem _ he))]

/-- Re-normalizing a canonical `YYYY-MM` token is the identity, for
either value of `allow_atual`. -/
theorem normalizeDate_canon (ys : List Char) (m : Nat) (f : Bool)
    (hdig : ∀ c ∈ ys, isDigitC c = true) (hlen : ys.length = 4)
    (hm1 : 1 ≤ m) (hm2 : m ≤ 12) :
    normalizeDate (ymString ys m) f = .ok (ymString ys m) := by
  have hc1 : isDigitC (Char.ofNat (48 + m / 10)) = true := monthChar1_digit m hm2
  have hc2 : isDigitC (Char.ofNat (48 + m % 10)) = true := monthChar2_digit m
  have hdata : (ymString ys m).data =
      ys ++ '-' :: [Char.ofNat (48 + m / 10), Char.ofNat (48 + m % 10)] := rfl
  have hmemtype : ∀ c ∈ (ymString ys m).data,
      isDigitC c = true ∨ c = '-' := by
    intro c hc
    rw [hdata] at hc
    rcases List.mem_append.mp hc with h1 | h1
    · exact Or.inl (hdig c h1)
    · rcases List.mem_cons.mp h1 with h2 | h2
      · exact Or.inr h2
      · rcases List.mem_cons.mp h2 with h3 | h3
        · exact Or.inl (h3 ▸ hc1)
        · rcases List.mem_singleton.mp h3 with rfl
          exact Or.inl hc2
  have hplain : ∀ c ∈ (ymString ys m).data, plainAscii c = true := by
    intro c hc
    rcases hmemtype c hc with h1 | h1
    · exact isDigitC_plainAscii c h1
    · rw [h1]
      decide
  have hulen : (ymString ys m).data.length = 7 := by
    rw [hdata, List.length_append, hlen]
    rfl
  have hune : (ymString ys m).data ≠ [] := by
    rw [hdata]
    cases ys with
    | nil => simp at hlen
    | cons a tl => exact fun hh => List.noConfusion hh
  have hclean : cleanText (some (ymString ys m)) 40 = some (ymString ys m) := by
    have := cleanText_plain (ymString ys m).data 40 hplain hune
      (by rw [hulen]; omega)
    exact this
  have hlower : lowerStr (ymString ys m) = ymString ys m := by
    rw [lowerStr]
    have : lowerChars (ymString ys m).data = (ymString ys m).data := by
      rw [lowerChars]
      apply map_toLowerC_id
      intro c hc
      rcases hmemtype c hc with h1 | h1
      · have : 48 ≤ c.toNat ∧ c.toNat ≤ 57 := by simpa [isDigitC] using h1
        omega
      · rw [h1]
        decide
    rw [this]
  have hPY : parseYmd (ymString ys m).data = some (ys, m) := by
    have hsplit := takeWhile_all_append isDigitC ys '-'
      [Char.ofNat (48 + m / 10), Char.ofNat (48 + m % 10)] hdig (by decide)
    rw [hdata]
    simp only [parseYmd, hsplit.1, hsplit.2, hlen]
    rw [if_pos (by decide)]
    rw [if_pos (by
      simp only [Bool.and_eq_true]
      refine ⟨⟨⟨by decide, ?_⟩, rfl⟩, rfl⟩
      simp [hc1, hc2])]
    rw [twoDigitVal_month m hm2]
  have hTry : tryNumeric (parseYmd (ymString ys m).data) =
      some (ymString ys m) := by
    rw [hPY, tryNumeric]
    rw [if_pos (by
      simp only [Bool.and_eq_true, decide_eq_true_eq]
      omega)]
  have hsent : isSentinelWord (ymString ys m) = false := by
    obtain ⟨y1, tl1, hys⟩ : ∃ y1 tl1, ys = y1 :: tl1 := by
      cases ys with
      | nil => simp at hlen
      | cons a tl => exact ⟨a, tl, rfl⟩
    have hhead : ∀ (w0 : Char) (wr : List Char),
        (ymString ys m).data = w0 :: wr → isDigitC w0 = true := by
      intro w0 wr hh
      rw [hdata, hys, List.cons_append, List.cons.injEq] at hh
      rw [← hh.1]
      exact hdig y1 (by rw [hys]; exact List.mem_cons_self _ _)
    have w1 : (ymString ys m == "atual") = false :=
      beq_eq_false_iff_ne.mpr (fun hh => absurd
        (hhead 'a' ['t', 'u', 'a', 'l'] (congrArg String.data hh))
        (by decide))
    have w2 : (ymString ys m == "current") = false :=
      beq_eq_false_iff_ne.mpr (fun hh => absurd
        (hhead 'c' ['u', 'r', 'r', 'e', 'n', 't'] (congrArg String.data hh))
        (by decide))
    have w3 : (ymString ys m == "present") = false :=
      beq_eq_false_iff_ne.mpr (fun hh => absurd
        (hhead 'p' ['r', 'e', 's', 'e', 'n', 't'] (congrArg String.data hh))
        (by decide))
    have w4 : (ymString ys m == "ongoing") = false :=
      beq_eq_false_iff_ne.mpr (fun hh => absurd
        (hhead 'o' ['n', 'g', 'o', 'i', 'n', 'g'] (congrArg String.data hh))
        (by decide))
    have w5 : (ymString ys m == "now") = false :=
      beq_eq_false_iff_ne.mpr (fun hh => absurd
        (hhead 'n' ['o', 'w'] (congrArg String.data hh))
        (by decide))
    rw [isSentinelWord, w1, w2, w3, w4, w5]
    rfl
  simp only [normalizeDate, hclean, hlower, hsent, Bool.and_false,
    Bool.false_eq_true, if_false, hTry]

/-- `normalize_date` is idempotent on its successful outputs. -/
theorem normalizeDate_idem (v : String) (f : Bool) (d : String)
    (h : normalizeDate v f = .ok d) : normalizeDate d f = .ok d := by
  rcases normalizeDate_ok_shape v f d h with ⟨rfl, rfl⟩ |
    ⟨ys, m, hdig, hlen, hm1, hm2, rfl⟩
  · rfl
  · exact normalizeDate_canon ys m f hdig hlen hm1 hm2

/-! ### Deduplication, traversal, and per-field idempotence lemmas (C8). -/
theorem dedup_go_append (l : List String) :
    ∀ (acc : List String × List String),
    ∃ t, (l.foldl (fun acc skill =>
      if acc.2.contains (lowerStr skill) then acc
      else (acc.1 ++ [skill], acc.2 ++ [lowerStr skill])) acc).1 =
      acc.1 ++ t := by
  induction l with
  | nil => intro acc; exact ⟨[], by simp⟩
  | cons s rest ih =>
    intro acc
    simp only [List.foldl_cons]
    by_cases hc : acc.2.contains (lowerStr s) = true
    · rw [if_pos hc]
      exact ih acc
    · rw [if_neg hc]
      rcases ih (acc.1 ++ [s], acc.2 ++ [lowerStr s]) with ⟨t, ht⟩
      exact ⟨[s] ++ t, by rw [ht, List.append_assoc]⟩

theorem dedup_go_id (l : List String) :
    ∀ (acc1 acc2 : List String), acc2 = acc1.map lowerStr →
    (acc2 ++ l.map lowerStr).Nodup →
    (l.foldl (fun acc skill =>
      if acc.2.contains (lowerStr skill) then acc
      else (acc.1 ++ [skill], acc.2 ++ [lowerStr skill])) (acc1, acc2)).1 =
      acc1 ++ l := by
  induction l with
  | nil => intro acc1 acc2 _ _; simp
  | cons s rest ih =>
    intro acc1 acc2 hinv hnd
    simp only [List.foldl_cons]
    have hnotmem : lowerStr s ∉ acc2 := by
      intro hmem
      rw [List.map_cons] at hnd
      have hdisj := (List.nodup_append.mp hnd).2.2
      exact hdisj hmem (List.mem_cons_self _ _)
    rw [if_neg (by
      intro hcc
      exact hnotmem (List.elem_iff.mp hcc))]
    have := ih (acc1 ++ [s]) (acc2 ++ [lowerStr s]) (by rw [hinv]; simp)
      (by
        rw [List.map_cons] at hnd
        rw [List.append_assoc]
        simpa using hnd)
    rw [this, List.append_assoc]
    rfl

/-- `dedupCaseIns` is the identity on lists whose lowercased entries
are pairwise distinct. -/
theorem dedupCaseIns_id (l : List String)
    (h : (l.map lowerStr).Nodup) : dedupCaseIns l = l := by
  rw [dedupCaseIns]
  have := dedup_go_id l [] [] rfl (by simpa using h)
  simpa using this

theorem dedupCaseIns_ne_nil (s : String) (rest : List String) :
    dedupCaseIns (s :: rest) ≠ [] := by
  rw [dedupCaseIns]
  simp only [List.foldl_cons]
  rw [if_neg (by simp [List.contains])]
  rcases dedup_go_append rest ([] ++ [s], [] ++ [lowerStr s]) with ⟨t, ht⟩
  rw [ht]
  simp

theorem dedup_go_inv (l : List String) :
    ∀ (acc1 acc2 : List String), acc2 = acc1.map lowerStr →
    acc2.Nodup →
    (((l.foldl (fun acc skill =>
        if acc.2.contains (lowerStr skill) then acc
        else (acc.1 ++ [skill], acc.2 ++ [lowerStr skill]))
        (acc1, acc2)).1.map lowerStr).Nodup) ∧
    (∀ x ∈ (l.foldl (fun acc skill =>
        if acc.2.contains (lowerStr skill) then acc
        else (acc.1 ++ [skill], acc.2 ++ [lowerStr skill]))
        (acc1, acc2)).1, x ∈ acc1 ∨ x ∈ l) := by
  induction l with
  | nil =>
    intro acc1 acc2 hinv hnd
    simp only [List.foldl_nil]
    constructor
    · rw [← hinv]
      exact hnd
    · exact fun x hx => Or.inl hx
  | cons s rest ih =>
    intro acc1 acc2 hinv hnd
    simp only [List.foldl_cons]
    by_cases hc : acc2.contains (lowerStr s) = true
    · rw [if_pos hc]
      rcases ih acc1 acc2 hinv hnd with ⟨h1, h2⟩
      refine ⟨h1, fun x hx => ?_⟩
      rcases h2 x hx with h3 | h3
      · exact Or.inl h3
      · exact Or.inr (List.mem_cons_of_mem _ h3)
    · rw [if_neg hc]
      have hnm : lowerStr s ∉ acc2 := fun hmem => hc (List.elem_iff.mpr hmem)
      rcases ih (acc1 ++ [s]) (acc2 ++ [lowerStr s])
        (by rw [hinv]; simp)
        (by
          rw [List.nodup_append]
          exact ⟨hnd, List.nodup_singleton _, by
            intro a ha hb
            rw [List.mem_singleton] at hb
            subst hb
            exact hnm ha⟩) with ⟨h1, h2⟩
      refine ⟨h1, fun x hx => ?_⟩
      rcases h2 x hx with h3 | h3
      · rcases List.mem_append.mp h3 with h4 | h4
        · exact Or.inl h4
        · exact Or.inr (List.mem_cons.mpr (Or.inl (List.mem_singleton.mp h4)))
      · exact Or.inr (List.mem_cons_of_mem _ h3)

theorem dedupCaseIns_lowerNodup (l : List String) :
    ((dedupCaseIns l).map lowerStr).Nodup :=
  (dedup_go_inv l [] [] rfl List.nodup_nil).1

theorem dedupCaseIns_mem (l : List String) (x : String)
    (hx : x ∈ dedupCaseIns l) : x ∈ l := by
  rcases (dedup_go_inv l [] [] rfl List.nodup_nil).2 x hx with h | h
  · exact absurd h (List.not_mem_nil x)
  · exact h

theorem vocab_lowerNodup : (RAW_TECH_KEYWORDS.map lowerStr).Nodup := by
  decide

theorem vocab_cleanFixed : (RAW_TECH_KEYWORDS.all
    (fun kw => cleanText (some kw) MAX_TECH_ITEM_LENGTH == some kw)) =
    true := by
  decide

theorem exceptBind_ok {α β : Type} (e : Except String α)
    (f : α → Except String β) (b : β) (h : (e >>= f) = .ok b) :
    ∃ a, e = .ok a ∧ f a = .ok b := by
  cases e with
  | error msg =>
    exfalso
    have : (Except.error msg >>= f) = (Except.error msg : Except String β) :=
      rfl
    rw [this] at h
    exact Except.noConfusion h
  | ok a =>
    refine ⟨a, rfl, ?_⟩
    have : (Except.ok a >>= f) = f a := rfl
    rw [← this]
    exact h

theorem cleanText_none (L : Nat) : cleanText none L = none := rfl

theorem cleanText_empty (L : Nat) : cleanText (some "") L = none := rfl

theorem cleanText_fixpoint_opt (v : Option String) (t : String) (L : Nat)
    (hL : 1 ≤ L) (h : cleanText v L = some t) (ha : noAmp t.data = true) :
    cleanText (some t) L = some t := by
  cases v with
  | none =>
    rw [cleanText_none] at h
    exact Option.noConfusion h
  | some s => exact cleanText_fixpoint s t L hL h ha

/-- The scalar-field pattern `clean_text(...) or ""` is stable under
re-normalization when its output is ampersand-free. -/
theorem cleanGetD_fix (v : Option String) (L : Nat) (hL : 1 ≤ L)
    (ha : noAmp ((cleanText v L).getD "").data = true) :
    (cleanText (some ((cleanText v L).getD "")) L).getD "" =
      (cleanText v L).getD "" := by
  cases hv : cleanText v L with
  | none => rw [Option.getD_none, cleanText_empty, Option.getD_none]
  | some t =>
    rw [Option.getD_some]
    rw [hv, Option.getD_some] at ha
    rw [cleanText_fixpoint_opt v t L hL hv ha, Option.getD_some]

/-- The optional-field pattern is stable under re-normalization. -/
theorem cleanOpt_fix (v : Option String) (L : Nat) (hL : 1 ≤ L)
    (ha : optNoAmp (cleanText v L) = true) :
    cleanText (cleanText v L) L = cleanText v L := by
  cases hv : cleanText v L with
  | none => exact cleanText_none L
  | some t =>
    rw [hv] at ha
    exact cleanText_fixpoint_opt v t L hL hv (by simpa [optNoAmp,
      strNoAmp] using ha)

theorem filterMap_clean_id (L : Nat) (l : List String)
    (h : ∀ b ∈ l, cleanText (some b) L = some b) :
    l.filterMap (fun b => cleanText (some b) L) = l := by
  induction l with
  | nil => rfl
  | cons b rest ih =>
    rw [List.filterMap_cons, h b (List.mem_cons_self _ _),
      ih (fun e he => h e (List.mem_cons_of_mem _ he))]

theorem exceptOk_bind {α β : Type} (a : α) (f : α → Except String β) :
    (Except.ok a >>= f) = f a := rfl

theorem normalizeEducation_idem (edu : RawEducation) (ne : NormEducation)
    (h : normalizeEducation edu = .ok ne) (ha : ampFreeEducation ne = true) :
    normalizeEducation (eduToRaw ne) = .ok ne := by
  rw [normalizeEducation] at h
  rcases exceptBind_ok _ _ _ h with ⟨sd, hsd, h2⟩
  rcases exceptBind_ok _ _ _ h2 with ⟨ed, hed, h3⟩
  have hne := (Except.ok.inj h3).symm
  subst hne
  rw [ampFreeEducation] at ha
  simp only [Bool.and_eq_true] at ha
  rw [normalizeEducation, eduToRaw]
  simp only [Option.getD_some]
  rw [normalizeDate_idem _ false sd hsd, exceptOk_bind,
    normalizeDate_idem _ false ed hed, exceptOk_bind]
  have e1 := cleanGetD_fix edu.institution MAX_EDU_FIELD_LENGTH (by decide)
    (by simpa [strNoAmp] using ha.1.1.1)
  have e2 := cleanGetD_fix edu.degree MAX_EDU_FIELD_LENGTH (by decide)
    (by simpa [strNoAmp] using ha.1.1.2)
  show Except.ok _ = Except.ok _
  rw [e1, e2]

theorem filterMap_self {α : Type} (f : α → Option α) (l : List α)
    (h : ∀ x ∈ l, f x = some x) : l.filterMap f = l := by
  induction l with
  | nil => rfl
  | cons x rest ih =>
    rw [List.filterMap_cons, h x (List.mem_cons_self _ _),
      ih (fun e he => h e (List.mem_cons_of_mem _ he))]

theorem map_self {α : Type} (f : α → α) (l : List α)
    (h : ∀ x ∈ l, f x = x) : l.map f = l := by
  induction l with
  | nil => rfl
  | cons x rest ih =>
    rw [List.map_cons, h x (List.mem_cons_self _ _),
      ih (fun e he => h e (List.mem_cons_of_mem _ he))]

theorem exceptMapM_ok_mem {α β : Type} (f : α → Except String β) :
    ∀ (l : List α) (out : List β), exceptMapM f l = .ok out →
    ∀ b ∈ out, ∃ a ∈ l, f a = .ok b := by
  intro l
  induction l with
  | nil =>
    intro out h b hb
    have : out = [] := (Except.ok.inj h).symm
    subst this
    exact absurd hb (List.not_mem_nil b)
  | cons x xs ih =>
    intro out h b hb
    rw [exceptMapM] at h
    rcases exceptBind_ok _ _ _ h with ⟨y, hy, h2⟩
    rcases exceptBind_ok _ _ _ h2 with ⟨ys, hys, h3⟩
    have : y :: ys = out := Except.ok.inj h3
    subst this
    rcases List.mem_cons.mp hb with h4 | h4
    · subst h4
      exact ⟨x, List.mem_cons_self _ _, hy⟩
    · rcases ih ys hys b h4 with ⟨a, ha1, ha2⟩
      exact ⟨a, List.mem_cons_of_mem _ ha1, ha2⟩

theorem exceptMapM_map_self {α β : Type} (f : α → Except String β)
    (g : β → α) : ∀ out : List β, (∀ b ∈ out, f (g b) = .ok b) →
    exceptMapM f (out.map g) = .ok out := by
  intro out
  induction out with
  | nil => intro _; rfl
  | cons b rest ih =>
    intro h
    rw [List.map_cons, exceptMapM, h b (List.mem_cons_self _ _),
      exceptOk_bind, ih (fun e he => h e (List.mem_cons_of_mem _ he)),
      exceptOk_bind]
    rfl

theorem mem_extract_vocab (ts : List (Option String)) (kw : String)
    (h : kw ∈ extractTechKeywords ts) : kw ∈ RAW_TECH_KEYWORDS := by
  have h1 := List.mem_of_mem_take h
  rcases mem_foldl_kwScanText ts [] kw h1 with h2 | h2
  · exact absurd h2 (List.not_mem_nil kw)
  · rcases h2 with ⟨s, _, _, hv, _⟩
    exact hv

theorem extract_nodup (ts : List (Option String)) :
    (extractTechKeywords ts).Nodup :=
  List.Nodup.sublist (List.take_sublist _ _)
    (nodup_foldl_kwScanText ts [] List.nodup_nil)

theorem lowerNodup_of_vocab (l : List String) (hnd : l.Nodup)
    (hsub : ∀ x ∈ l, x ∈ RAW_TECH_KEYWORDS) :
    (l.map lowerStr).Nodup := by
  apply List.Nodup.map_on ?_ hnd
  intro x hx y hy hxy
  exact List.inj_on_of_nodup_map vocab_lowerNodup (hsub x hx) (hsub y hy) hxy

theorem vocab_clean_kw (kw : String) (h : kw ∈ RAW_TECH_KEYWORDS) :
    cleanText (some kw) MAX_TECH_ITEM_LENGTH = some kw := by
  have := (List.all_eq_true.mp vocab_cleanFixed) kw h
  simpa using this

theorem dedupCaseIns_isEmpty_false (x : String) (rest : List String) :
    (dedupCaseIns (x :: rest)).isEmpty = false := by
  rcases hne : dedupCaseIns (x :: rest) with _ | ⟨y, ys⟩
  · exact absurd hne (dedupCaseIns_ne_nil x rest)
  · rfl

theorem normalizeExperience_idem (jt : Option String) (exp : RawExperience)
    (ne : NormExperience) (h : normalizeExperience jt exp = .ok ne)
    (ha : ampFreeExperience ne = true) :
    normalizeExperience jt (expToRaw ne) = .ok ne := by
  rw [normalizeExperience] at h
  rcases exceptBind_ok _ _ _ h with ⟨sd, hsd, h2⟩
  rcases exceptBind_ok _ _ _ h2 with ⟨ed, hed, h3⟩
  have hne := (Except.ok.inj h3).symm
  subst hne
  rw [ampFreeExperience] at ha
  simp only [Bool.and_eq_true] at ha
  have haC := ha.1.1.1.1.1.1
  have haR := ha.1.1.1.1.1.2
  have haL := ha.1.1.1.1.2
  have haB := ha.1.2
  have haT := ha.2
  rw [normalizeExperience, expToRaw]
  simp only [Option.getD_some]
  rw [normalizeDate_idem _ true sd hsd, exceptOk_bind,
    normalizeDate_idem _ true ed hed, exceptOk_bind]
  have eC := cleanGetD_fix exp.company MAX_NAME_LENGTH (by decide)
    (by simpa [strNoAmp] using haC)
  have eR := cleanGetD_fix exp.role MAX_JOB_TITLE_LENGTH (by decide)
    (by simpa [strNoAmp] using haR)
  have eL := cleanOpt_fix exp.location MAX_LOCATION_LENGTH (by decide) haL
  have eB : (exp.bullets.filterMap
        (fun b => cleanText (some b) MAX_BULLET_LENGTH)).filterMap
        (fun b => cleanText (some b) MAX_BULLET_LENGTH) =
      exp.bullets.filterMap (fun b => cleanText (some b) MAX_BULLET_LENGTH) := by
    apply filterMap_clean_id
    intro b hb
    rcases List.mem_filterMap.mp hb with ⟨a, _, hab⟩
    have hamp : noAmp b.data = true := by
      have := (List.all_eq_true.mp haB) b hb
      simpa [strNoAmp] using this
    exact cleanText_fixpoint_opt (some a) b MAX_BULLET_LENGTH (by decide) hab hamp
  show Except.ok _ = Except.ok _
  rw [eC, eR, eL, eB]
  congr 1
  congr 1
  cases hts0 : exp.tech_stack.filterMap
      (fun i => cleanText (some i) MAX_TECH_ITEM_LENGTH) with
  | nil =>
    simp only [List.isEmpty_nil, if_true, List.filterMap_nil]
    cases hE : extractTechKeywords
        ([some ((cleanText exp.role MAX_JOB_TITLE_LENGTH).getD ""),
          some ((cleanText exp.company MAX_NAME_LENGTH).getD "")] ++
          (exp.bullets.filterMap
            (fun b => cleanText (some b) MAX_BULLET_LENGTH)).map some ++
          [jt]) with
    | nil => simp
    | cons k ks =>
      have hsub : ∀ x ∈ k :: ks, x ∈ RAW_TECH_KEYWORDS := by
        intro x hx
        exact mem_extract_vocab _ x (hE ▸ hx)
      have hfix : (k :: ks).filterMap
          (fun i => cleanText (some i) MAX_TECH_ITEM_LENGTH) = k :: ks := by
        apply filterMap_clean_id
        intro x hx
        exact vocab_clean_kw x (hsub x hx)
      rw [hfix]
      have hnd : ((k :: ks).map lowerStr).Nodup :=
        lowerNodup_of_vocab _ (hE ▸ extract_nodup _) hsub
      simp only [List.isEmpty_cons, Bool.false_eq_true, if_false,
        dedupCaseIns_id _ hnd, List.isEmpty_cons]
  | cons x rest =>
    rw [hts0] at haT
    simp only [List.isEmpty_cons, Bool.false_eq_true, if_false,
      dedupCaseIns_isEmpty_false, List.isEmpty_cons] at haT ⊢
    have hfix : (dedupCaseIns (x :: rest)).filterMap
        (fun i => cleanText (some i) MAX_TECH_ITEM_LENGTH) =
        dedupCaseIns (x :: rest) := by
      apply filterMap_clean_id
      intro d hd
      have hdm : d ∈ exp.tech_stack.filterMap
          (fun i => cleanText (some i) MAX_TECH_ITEM_LENGTH) := by
        rw [hts0]
        exact dedupCaseIns_mem _ d hd
      rcases List.mem_filterMap.mp hdm with ⟨a, _, hab⟩
      have hamp : noAmp d.data = true := by
        have := (List.all_eq_true.mp haT) d hd
        simpa [strNoAmp] using this
      exact cleanText_fixpoint_opt (some a) d MAX_TECH_ITEM_LENGTH
        (by decide) hab hamp
    rw [hfix]
    have hnd := dedupCaseIns_lowerNodup (x :: rest)
    rcases hD : dedupCaseIns (x :: rest) with _ | ⟨y, ys⟩
    · exact absurd hD (dedupCaseIns_ne_nil x rest)
    · rw [hD] at hnd
      simp only [List.isEmpty_cons, Bool.false_eq_true, if_false,
        dedupCaseIns_id _ hnd, List.isEmpty_cons]

theorem normalizeContact_idem (c : Option RawContact) (nc : NormContact)
    (h : normalizeContact c = some nc)
    (hamp : (optNoAmp nc.email && optNoAmp nc.phone &&
      optNoAmp nc.location) = true) :
    normalizeContact (some ⟨nc.email, nc.phone, nc.location⟩) = some nc := by
  cases c with
  | none => exact absurd h (by rw [normalizeContact]; exact Option.noConfusion)
  | some rc =>
    rw [normalizeContact] at h
    split at h
    case isTrue hcond =>
      have hnc := (Option.some.inj h).symm
      subst hnc
      simp only [Bool.and_eq_true] at hamp
      rw [normalizeContact]
      simp only []
      rw [cleanOpt_fix rc.email MAX_CONTACT_FIELD_LENGTH (by decide) hamp.1.1,
        cleanOpt_fix rc.phone MAX_CONTACT_FIELD_LENGTH (by decide) hamp.1.2,
        cleanOpt_fix rc.location MAX_CONTACT_FIELD_LENGTH (by decide) hamp.2,
        if_pos hcond]
    case isFalse => exact absurd h Option.noConfusion

theorem normalizeLanguage_idem (nl : NormLanguage)
    (horig : ∃ lang, normalizeLanguage lang = nl)
    (hamp : (strNoAmp nl.name && strNoAmp nl.level) = true) :
    normalizeLanguage ⟨some nl.name, some nl.level⟩ = nl := by
  rcases horig with ⟨lang, hl⟩
  subst hl
  simp only [Bool.and_eq_true] at hamp
  rw [normalizeLanguage, normalizeLanguage]
  simp only [Option.getD_some]
  rw [cleanGetD_fix lang.name MAX_LANGUAGE_NAME_LENGTH (by decide)
      (by simpa [strNoAmp] using hamp.1),
    cleanGetD_fix lang.level 10 (by decide)
      (by simpa [strNoAmp] using hamp.2)]

theorem normalizeLinks_idem (links : List RawLink)
    (ha : (normalizeLinks links).all
      (fun l => strNoAmp l.label && strNoAmp l.url) = true) :
    normalizeLinks ((normalizeLinks links).map
      (fun l => ⟨some l.label, some l.url⟩)) =
    normalizeLinks links := by
  conv_lhs => rw [normalizeLinks]
  rw [List.filterMap_map]
  apply filterMap_self
  intro nl hnl
  have hamp := (List.all_eq_true.mp ha) nl hnl
  simp only [Bool.and_eq_true] at hamp
  rw [normalizeLinks] at hnl
  rcases List.mem_filterMap.mp hnl with ⟨raw, _, hraw⟩
  simp only [] at hraw
  split at hraw
  case isFalse => exact absurd hraw Option.noConfusion
  case isTrue hcond =>
    have hnc := (Option.some.inj hraw).symm
    subst hnc
    simp only [Function.comp]
    rw [cleanGetD_fix raw.label MAX_EXTERNAL_LABEL_LENGTH (by decide)
        (by simpa [strNoAmp] using hamp.1),
      cleanGetD_fix raw.url MAX_EXTERNAL_URL_LENGTH (by decide)
        (by simpa [strNoAmp] using hamp.2),
      if_pos hcond]

/-- **C8.** The claim "running the normalizer on its own output yields the
output unchanged (normalization is idempotent)" is false as stated: HTML
entity decoding removes one level of entity encoding per pass, so a field
that still contains an ampersand after the first pass can change again on
the second (see the counterexample). The amended statement holds: on any
normalizer output none of whose text fields contains an ampersand, a
second run returns exactly the same output. -/
theorem c8_idempotence_amended (x : RawResume) (jt : Option String)
    (y : NormResume) (h : normalizeResumePayload x jt = .ok y)
    (hamp : ampFreeResume y = true) :
    normalizeResumePayload (normToRaw y) jt = .ok y := by
  rw [normalizeResumePayload] at h
  rcases exceptBind_ok _ _ _ h with ⟨exps, hexps, h2⟩
  rcases exceptBind_ok _ _ _ h2 with ⟨edus, hedus, h3⟩
  have hy := (Except.ok.inj h3).symm
  subst hy
  rw [ampFreeResume] at hamp
  simp only [Bool.and_eq_true] at hamp
  have haN := hamp.1.1.1.1.1.1.1
  have haJ := hamp.1.1.1.1.1.1.2
  have haI := hamp.1.1.1.1.1.2
  have haCon := hamp.1.1.1.1.2
  have haE := hamp.1.1.1.2
  have haEd := hamp.1.1.2
  have haLg := hamp.1.2
  have haLk := hamp.2
  rw [normalizeResumePayload, normToRaw]
  simp only [Option.getD_some]
  have hExp : exceptMapM (normalizeExperience jt) (exps.map expToRaw) =
      .ok exps := by
    apply exceptMapM_map_self
    intro e he
    rcases exceptMapM_ok_mem _ _ _ hexps e he with ⟨a, _, hae⟩
    exact normalizeExperience_idem jt a e hae ((List.all_eq_true.mp haE) e he)
  have hEdu : exceptMapM normalizeEducation (edus.map eduToRaw) =
      .ok edus := by
    apply exceptMapM_map_self
    intro e he
    rcases exceptMapM_ok_mem _ _ _ hedus e he with ⟨a, _, hae⟩
    exact normalizeEducation_idem a e hae ((List.all_eq_true.mp haEd) e he)
  rw [hExp, exceptOk_bind, hEdu, exceptOk_bind]
  have eN := cleanGetD_fix x.name MAX_NAME_LENGTH (by decide)
    (by simpa [strNoAmp] using haN)
  have eJ := cleanGetD_fix x.job_title MAX_JOB_TITLE_LENGTH (by decide)
    (by simpa [strNoAmp] using haJ)
  have eI := cleanGetD_fix x.candidate_introduction MAX_INTRO_LENGTH
    (by decide) (by simpa [strNoAmp] using haI)
  have eC : normalizeContact ((normalizeContact x.contact_information).map
      (fun c => ⟨c.email, c.phone, c.location⟩)) =
      normalizeContact x.contact_information := by
    cases hc : normalizeContact x.contact_information with
    | none => rfl
    | some nc =>
      rw [hc] at haCon
      have hcc : (optNoAmp nc.email && optNoAmp nc.phone &&
        optNoAmp nc.location) = true := haCon
      show normalizeContact (some ⟨nc.email, nc.phone, nc.location⟩) = some nc
      exact normalizeContact_idem _ nc hc hcc
  have eLg : ((x.languages.map normalizeLanguage).map
      (fun l : NormLanguage => (⟨some l.name, some l.level⟩ : RawLanguage))).map
      normalizeLanguage = x.languages.map normalizeLanguage := by
    rw [List.map_map]
    apply map_self
    intro nl hnl
    rcases List.mem_map.mp hnl with ⟨lang, _, hl⟩
    show normalizeLanguage ⟨some nl.name, some nl.level⟩ = nl
    exact normalizeLanguage_idem nl ⟨lang, hl⟩ ((List.all_eq_true.mp haLg) nl hnl)
  have eLk := normalizeLinks_idem x.external_links haLk
  show Except.ok _ = Except.ok _
  rw [eN, eJ, eI, eC, eLg, eLk]

/-- **C8 (counterexample).** The literal claim fails: the raw name
string built from a doubly-escaped ampersand normalizes to a name that
still contains an entity, and a second normalization pass decodes it
once more, so the second pass does not return the first-pass output. -/
theorem c8_idempotence_counterexample :
    normalizeResumePayload c8Raw none = .ok c8FirstPass ∧
    normalizeResumePayload (normToRaw c8FirstPass) none ≠ .ok c8FirstPass :=
  ⟨rfl, fun hcontra => absurd (Except.ok.inj hcontra) (by decide)⟩

/-- Witness for `c8_idempotence_amended` at a concrete ampersand-free
payload. -/
theorem c8_idempotence_amended_witness :
    normalizeResumePayload c8CleanRaw none = .ok c8CleanNorm ∧
    ampFreeResume c8CleanNorm = true ∧
    normalizeResumePayload (normToRaw c8CleanNorm) none = .ok c8CleanNorm :=
  ⟨rfl, rfl, c8_idempotence_amended c8CleanRaw none c8CleanNorm rfl rfl⟩
